import Mathlib

/-!
# Verification of the Civ6-Optimizer scoring/tiering core and hex-grid queries

Shallow embedding of the computational core of the repository:

* `src/modules/utils.js` — tile scoring (`calculateWeightedTileScore` and its
  component functions), normalization and percentile tier assignment
  (`normalizeAndAssignTiers`), and the public entry point
  (`recalculateScoresAndTiers`).
* `src/modules/interaction.js` — the offset-coordinate hexagonal radius query
  (`getCoordsWithinRadius`, `getNeighborCoords`, `getHexagonsWithinRadius`)
  and the debug/focus-mode state machine (`onCanvasClick`, `enterDebugMode`).

Modelling conventions:

* JavaScript numbers are modelled as `ℚ` (the claims under study are
  structural and do not depend on float rounding); `Math.round` is
  `⌊x + 1/2⌋` (JS rounds half toward +∞) and `Math.ceil` is `⌈x⌉`.
* A possibly-absent JS object field is an `Option`; `x ?? d` is `Option.getD`.
* A JS object used as a string-keyed dictionary iterated with `for … in` /
  `Object.entries` is an association list `List (String × _)`, preserving
  insertion order, which is what JS object iteration order gives for these
  non-numeric keys.
* `Array.prototype.sort`, which is required to be stable and is called with
  comparator `(a, b) => f a - f b`, is `List.mergeSort` with `decide (f a ≤ f b)`
  (the unique stable ascending sort).
* The tile objects are mutated in place through aliased references in the
  source; here each pass returns the updated list, and the tier-assignment
  loop (which works on a sorted copy of the references) tracks each workable
  tile's position in the original list so the updates can be written back.
* The `visited` set of the breadth-first search keys coordinates by the
  string `` `${q},${r}` ``, which for numeric coordinates is in bijection
  with the pair, so it is modelled by the pair itself.
-/

namespace Civ6

/-- JS `Math.round`: rounds half toward positive infinity. -/
def jsRound (x : ℚ) : ℤ := ⌊x + 1/2⌋

/-! ## Data model: tiles and configuration (utils.js / scoring part) -/

/-- Static attributes of a tile, set at load time and only read by the
scoring engine.  Absent fields are `none`; `rivers` and `goodyhut` model the
truthiness tests `tile?.rivers` and `tile?.goodyhut === true`. -/
structure TileData where
  terrain : Option String := none
  feature : Option String := none
  resource : Option String := none
  base_food : Option ℚ := none
  base_production : Option ℚ := none
  base_gold : Option ℚ := none
  rivers : Bool := false
  appeal : Option ℚ := none
  goodyhut : Bool := false
deriving DecidableEq, Repr

/-- A tile object: static attributes plus the derived fields that
`normalizeAndAssignTiers` adds/overwrites in place. -/
@[ext]
structure Tile extends TileData where
  weighted_score : Option ℚ := none
  is_workable : Option Bool := none
  normalized_score : Option ℚ := none
  tier : Option String := none
deriving DecidableEq, Repr

/-- `config.scoring_weights.yields` — each leaf may be absent. -/
structure YieldsW where
  food : Option ℚ := none
  production : Option ℚ := none
  gold : Option ℚ := none

/-- `config.scoring_weights.bonuses`.  The dynamically-keyed lookups
`` bonusConfig[`resource_${resType.toLowerCase()}_factor`] `` are modelled by
`resourceFactor` applied to the lower-cased resource-type key. -/
structure BonusesW where
  balance_factor : Option ℚ := none
  fresh_water : Option ℚ := none
  appeal_positive_factor : Option ℚ := none
  goody_hut : Option ℚ := none
  resourceFactor : String → Option ℚ := fun _ => none

structure ScoringWeights where
  yields : Option YieldsW := none
  bonuses : Option BonusesW := none

/-- The configuration object consumed by the scoring/tiering engine.
`resource_values` maps a resource class (e.g. `"strategic"`) to a table of
resource names and base values; `tier_percentiles` is the ordered
label → cumulative-percentile table. -/
structure Config where
  scoring_weights : Option ScoringWeights := none
  resource_values : Option (List (String × List (String × ℚ))) := none
  tier_percentiles : Option (List (String × ℚ)) := none

/-- `config?.scoring_weights?.yields ?? {}` (all-absent on any missing link). -/
def Config.yieldsW (c : Config) : Option YieldsW :=
  c.scoring_weights.bind ScoringWeights.yields

/-- `config?.scoring_weights?.bonuses ?? {}`. -/
def Config.bonusesW (c : Config) : Option BonusesW :=
  c.scoring_weights.bind ScoringWeights.bonuses

/-! ## Scoring (utils.js lines 181–339) -/

/-- `calculateYieldScore(food, production, gold, config)`. -/
def calculateYieldScore (food production gold : ℚ) (c : Config) : ℚ :=
  let food_w := ((c.yieldsW).bind YieldsW.food).getD 1
  let prod_w := ((c.yieldsW).bind YieldsW.production).getD 1
  let gold_w := ((c.yieldsW).bind YieldsW.gold).getD (1/2)
  food * food_w + production * prod_w + gold * gold_w

/-- `calculateBalanceBonus(food, production, config)`. -/
def calculateBalanceBonus (food production : ℚ) (c : Config) : ℚ :=
  let balanceFactor := ((c.bonusesW).bind BonusesW.balance_factor).getD 1
  if 0 < food ∧ 0 < production then min food production * balanceFactor else 0

/-- Inner loop of `calculateResourceBonus`: walk the resource classes in
insertion order, stop at the first class whose table contains the resource;
`value = table[resource] ?? 0`, `factor = resource_<class>_factor ?? 1`. -/
def resourceBonusLoop (resource : String) (c : Config) :
    List (String × List (String × ℚ)) → ℚ
  | [] => 0
  | (resType, tbl) :: rest =>
    if (tbl.lookup resource).isSome then
      (tbl.lookup resource).getD 0 *
        (((c.bonusesW).bind (fun b => b.resourceFactor resType.toLower)).getD 1)
    else resourceBonusLoop resource c rest

/-- `calculateResourceBonus(tile, config)`: 0 for an absent or empty
(falsy) resource string. -/
def calculateResourceBonus (tile : TileData) (c : Config) : ℚ :=
  match tile.resource with
  | none => 0
  | some r =>
    if r = "" then 0
    else resourceBonusLoop r c (c.resource_values.getD [])

/-- `calculateFreshWaterBonus(tile, config)`. -/
def calculateFreshWaterBonus (tile : TileData) (c : Config) : ℚ :=
  let freshWaterWeight := ((c.bonusesW).bind BonusesW.fresh_water).getD 0
  if tile.rivers then freshWaterWeight else 0

/-- `calculateAppealBonus(tile, config)`: only positive appeal is rewarded. -/
def calculateAppealBonus (tile : TileData) (c : Config) : ℚ :=
  match tile.appeal with
  | none => 0
  | some a =>
    if 0 < a then a * (((c.bonusesW).bind BonusesW.appeal_positive_factor).getD (1/2))
    else 0

/-- `calculateGoodyBonus(tile, config)`. -/
def calculateGoodyBonus (tile : TileData) (c : Config) : ℚ :=
  let goodyWeight := ((c.bonusesW).bind BonusesW.goody_hut).getD 0
  if tile.goodyhut then goodyWeight else 0

/-- The workability test used both by `calculateWeightedTileScore` and by
`normalizeAndAssignTiers`: not open ocean and no ice feature. -/
def workableB (tile : TileData) : Bool :=
  ¬(tile.terrain.getD "" = "TERRAIN_OCEAN" ∨ tile.feature.getD "" = "FEATURE_ICE")

/-- `calculateWeightedTileScore(tile, config)` (utils.js 314–339): 0 for
non-workable tiles, otherwise the clamped sum of the six components. -/
def calculateWeightedTileScore (tile : TileData) (c : Config) : ℚ :=
  if ¬ workableB tile then 0
  else
    let food := tile.base_food.getD 0
    let production := tile.base_production.getD 0
    let gold := tile.base_gold.getD 0
    let yieldScore := calculateYieldScore food production gold c
    let balanceBonus := calculateBalanceBonus food production c
    let resourceBonus := calculateResourceBonus tile c
    let freshWaterBonus := calculateFreshWaterBonus tile c
    let appealBonus := calculateAppealBonus tile c
    let goodyBonus := calculateGoodyBonus tile c
    max 0 (yieldScore + balanceBonus + resourceBonus + freshWaterBonus + appealBonus + goodyBonus)

/-! ## Normalization and tier assignment (utils.js 349–484) -/

/-- Step 1 of `normalizeAndAssignTiers` applied to one tile: set
`weighted_score`, `is_workable`, reset `tier` to null, and zero the
`normalized_score` of non-workable tiles (a workable tile's old
`normalized_score` is left in place at this step, exactly as in the source;
it is overwritten by the normalization step). -/
def scorePass (c : Config) (t : Tile) : Tile :=
  let wk := workableB t.toTileData
  { t with
    weighted_score := some (calculateWeightedTileScore t.toTileData c)
    is_workable := some wk
    tier := none
    normalized_score := if wk then t.normalized_score else some 0 }

/-- Step 2 (normalization) applied to one tile: workable tiles get
`round((weighted_score ?? 0) / avg × 100)`, or 0 when the average is 0. -/
def normPass (avg : ℚ) (t : Tile) : Tile :=
  if t.is_workable = some true then
    { t with
      normalized_score :=
        some (if avg = 0 then 0 else (jsRound ((t.weighted_score.getD 0) / avg * 100) : ℚ)) }
  else t

/-- One pass of the inner `for` loop that stamps `tier` onto the sorted
workable tiles in positions `lo..hi`, only where `tier` is still null.
Entries carry their index in the original tile list as first component. -/
def applyTierRange (tier : String) (lo hi : ℕ) (l : List (ℕ × Tile)) : List (ℕ × Tile) :=
  l.mapIdx (fun i e =>
    if lo ≤ i ∧ i ≤ hi ∧ e.2.tier = none then (e.1, { e.2 with tier := some tier }) else e)

/-- The `sortedTiersConfig.forEach` loop of `normalizeAndAssignTiers`:
walks the percentile entries, computing each tier's clamped inclusive
cutoff index, skipping a tier whose range would regress, and otherwise
recording the score threshold and stamping the tier over its index range.
`n` is `nTiles`, `tIdx` the forEach index, `lastCutoff` the running start
of the current range. -/
def assignTiersLoop (n : ℕ) :
    List (String × ℚ) → ℕ → ℕ → List (ℕ × Tile) → List (String × ℚ) →
    List (String × ℚ) × List (ℕ × Tile)
  | [], _, _, sorted, th => (th, sorted)
  | (tier, percentileLimit) :: rest, tIdx, lastCutoff, sorted, th =>
    let cutoff : ℕ := (max 0 (min (⌈(n : ℚ) * percentileLimit⌉ - 1) ((n : ℤ) - 1))).toNat
    if cutoff < lastCutoff ∧ 0 < tIdx then
      assignTiersLoop n rest (tIdx + 1) lastCutoff sorted th
    else
      let scoreAtCutoff := ((sorted[cutoff]?).bind (fun e => e.2.normalized_score)).getD 0
      assignTiersLoop n rest (tIdx + 1) (cutoff + 1)
        (applyTierRange tier lastCutoff cutoff sorted) (th ++ [(tier, scoreAtCutoff)])

/-- The final check of `normalizeAndAssignTiers`: any workable tile still
unassigned gets the lowest configured tier. -/
def applyFallback (lowest : String) (l : List (ℕ × Tile)) : List (ℕ × Tile) :=
  l.map (fun e => if e.2.tier = none then (e.1, { e.2 with tier := some lowest }) else e)

/-- Write the (re-sorted, tier-stamped) workable tiles back into their
positions in the full tile list — this models the in-place mutation through
the aliased references held by `sortedWorkable`. -/
def writeBack (l : List Tile) (upd : List (ℕ × Tile)) : List Tile :=
  l.enum.map (fun e => match upd.find? (fun u => u.1 == e.1) with
    | some u => u.2
    | none => e.2)

/-- Step 3 of `normalizeAndAssignTiers` (utils.js 396–484): the tier
assignment over the already-scored-and-normalized tile list `l2`.  Bails out
with empty thresholds on an empty percentile table or an empty workable
set; otherwise sorts the workable tiles (stably) by normalized score, walks
the percentile entries, applies the lowest-tier fallback and writes the
tiers back through the aliased references. -/
def tierAssignStage (c : Config) (l2 : List Tile) : List Tile × List (String × ℚ) :=
  let tierPercentiles := c.tier_percentiles.getD []
  if tierPercentiles.length = 0 then (l2, [])
  else
    let sortedWorkable :=
      ((l2.enum.filter (fun e => e.2.is_workable = some true)).mergeSort
        (fun a b => decide (a.2.normalized_score.getD 0 ≤ b.2.normalized_score.getD 0)))
    let nTiles := sortedWorkable.length
    if nTiles = 0 then (l2, [])
    else
      let sortedTiersConfig := tierPercentiles.mergeSort (fun a b => decide (a.2 ≤ b.2))
      let res := assignTiersLoop nTiles sortedTiersConfig 0 0 sortedWorkable []
      let lowestTier := ((sortedTiersConfig.head?).map Prod.fst).getD "F"
      (writeBack l2 (applyFallback lowestTier res.2), res.1)

/-- `normalizeAndAssignTiers(tiles, config)` (utils.js 349–484).  Returns the
updated tile list together with the `scoreThresholds` association list. -/
def normalizeAndAssignTiers (tiles : List Tile) (c : Config) :
    List Tile × List (String × ℚ) :=
  let l1 := tiles.map (scorePass c)
  let workable1 := l1.filter (fun t => t.is_workable = some true)
  if workable1.length = 0 then (l1, [])
  else
    let totalWeightedScore := (workable1.map (fun t => t.weighted_score.getD 0)).sum
    let avgScore := if 0 < workable1.length then totalWeightedScore / workable1.length else 0
    tierAssignStage c (l1.map (normPass avgScore))

/-- `recalculateScoresAndTiers(tiles, config)` (utils.js 493–510): guards
against a null/non-array `tiles` argument and a falsy `config`, returning
empty thresholds and leaving the tiles untouched on those paths.  A `none`
first argument models both `null`/`undefined` and a non-array value. -/
def recalculateScoresAndTiers (tiles : Option (List Tile)) (c : Option Config) :
    List Tile × List (String × ℚ) :=
  match tiles with
  | none => ([], [])
  | some ts =>
    match c with
    | none => (ts, [])
    | some cfg => normalizeAndAssignTiers ts cfg

/-! ## Hexagonal radius query (interaction.js 81–157) -/

/-- A coordinate `(q, r)` of the offset hexagonal grid. -/
abbrev Coord := ℤ × ℤ

/-- The six direct neighbors of a coordinate, chosen by row parity
(interaction.js 90–95): even rows and odd rows use mirrored offset tables. -/
def getDirectNeighbors (c : Coord) : List Coord :=
  let direct_offsets : List Coord :=
    if c.2 % 2 = 0 then
      [(1, 0), (1, 1), (0, 1), (-1, 0), (0, -1), (1, -1)]
    else
      [(1, 0), (0, 1), (-1, 1), (-1, 0), (-1, -1), (0, -1)]
  direct_offsets.map (fun o => (c.1 + o.1, c.2 + o.2))

/-- The `directNeighbors.forEach` body of the BFS: add each unvisited
neighbor to the visited set, the results and the queue (with distance
`d + 1`).  Returns the updated `(visited, results, queue)`. -/
def expandNeighbors (d : ℤ) :
    List Coord → List Coord → List Coord → List (Coord × ℤ) →
    List Coord × List Coord × List (Coord × ℤ)
  | [], visited, results, queue => (visited, results, queue)
  | nb :: rest, visited, results, queue =>
    if nb ∈ visited then expandNeighbors d rest visited results queue
    else expandNeighbors d rest (nb :: visited) (results ++ [nb]) (queue ++ [(nb, d + 1)])

/-- The `while (queue.length > 0)` loop of `getCoordsWithinRadius`.  The
source loop terminates because every enqueued coordinate is fresh in the
(finite-in-reach) visited set; here the recursion carries explicit fuel,
and `getCoordsWithinRadius` supplies enough of it for the loop to run to
completion (proved below alongside the loop invariant). -/
def bfsLoop (radius : ℤ) :
    ℕ → List (Coord × ℤ) → List Coord → List Coord → List Coord
  | 0, _, _, results => results
  | _ + 1, [], _, results => results
  | fuel + 1, (c, d) :: rest, visited, results =>
    if d < radius then
      let s := expandNeighbors d (getDirectNeighbors c) visited results rest
      bfsLoop radius fuel s.2.2 s.1 s.2.1
    else bfsLoop radius fuel rest visited results

/-- Fuel budget for `bfsLoop`: one more than the size of the radius-`R`
hex ball, which bounds the number of loop iterations. -/
def bfsFuel (radius : ℤ) : ℕ :=
  3 * radius.toNat * radius.toNat + 3 * radius.toNat + 2

/-- `getCoordsWithinRadius(q, r, radius)` (interaction.js 81–107):
breadth-first expansion over the parity-dependent offset adjacency,
starting from the center, which is always included. -/
def getCoordsWithinRadius (q r : ℤ) (radius : ℤ) : List Coord :=
  let results : List Coord := [(q, r)]
  if radius ≤ 0 then results
  else bfsLoop radius (bfsFuel radius) [((q, r), 0)] [(q, r)] results

/-- A rendered hexagon: its tile coordinate plus an identifier standing for
the mesh object. -/
abbrev Hexagon := Coord × ℕ

/-- `hexagonCoordMap`: coordinate-keyed lookup of hexagons, as built by
`buildHexagonCoordMap`. -/
abbrev CoordMap := List (Coord × Hexagon)

/-- `getHexagonsWithinRadius(centerHex, radius)` (interaction.js 149–157):
look every coordinate of the radius query up in the coordinate map,
silently skipping absent ones. -/
def getHexagonsWithinRadius (map : CoordMap) (centerHex : Hexagon) (radius : ℤ) :
    Finset Hexagon :=
  ((getCoordsWithinRadius centerHex.1.1 centerHex.1.2 radius).filterMap
    (fun c => map.lookup c)).toFinset

/-! ## Debug (focus) mode state machine (interaction.js 210–305) -/

/-- `DEBUG_WORKABLE_RADIUS`. -/
def DEBUG_WORKABLE_RADIUS : ℤ := 3

/-- The module-level debug-mode state of interaction.js. -/
structure DebugState where
  isDebugModeActive : Bool := false
  debugModeCenterHex : Option Hexagon := none
  debugModeVisibleSet : Finset Hexagon := ∅
  debugModeWorkableSet : Finset Hexagon := ∅
  debugModeOuterRingSet : Finset Hexagon := ∅
deriving DecidableEq

/-- `enterDebugMode(centerHex)` (interaction.js 225–305), restricted to the
state it establishes: activates the mode, records the center, and computes
the visible (radius `DEBUG_WORKABLE_RADIUS + 1`), workable (radius
`DEBUG_WORKABLE_RADIUS`) and outer-ring (set difference) hexagon sets. -/
def enterDebugMode (map : CoordMap) (centerHex : Hexagon) (_s : DebugState) : DebugState :=
  let fullRadius := DEBUG_WORKABLE_RADIUS + 1
  let visibleSet := getHexagonsWithinRadius map centerHex fullRadius
  let workableSet := getHexagonsWithinRadius map centerHex DEBUG_WORKABLE_RADIUS
  { isDebugModeActive := true
    debugModeCenterHex := some centerHex
    debugModeVisibleSet := visibleSet
    debugModeWorkableSet := workableSet
    debugModeOuterRingSet := visibleSet \ workableSet }

/-- `onCanvasClick(event)` (interaction.js 213–222): ignored unless debug
mode is enabled and not already active; `clickedHex` is the result of the
ray cast (already `none` when nothing hexagonal was hit). -/
def onCanvasClick (isDebugModeEnabled : Bool) (map : CoordMap)
    (clickedHex : Option Hexagon) (s : DebugState) : DebugState :=
  if ¬ isDebugModeEnabled ∨ s.isDebugModeActive then s
  else
    match clickedHex with
    | some hex => enterDebugMode map hex s
    | none => s

/-! ## Lemma toolkit for the tiering pipeline -/

/-- A non-workable tile scores 0. -/
theorem calculateWeightedTileScore_of_not_workable {tile : TileData} (c : Config)
    (h : workableB tile = false) : calculateWeightedTileScore tile c = 0 := by
  unfold calculateWeightedTileScore
  simp [h]

/-- What one tile looks like after the scoring and normalization passes:
every derived field is recomputed from the static data (the workable
branch's pre-existing `normalized_score` is overwritten by `normPass`). -/
def freshTile (c : Config) (avg : ℚ) (d : TileData) : Tile :=
  let ws := calculateWeightedTileScore d c
  let wk := workableB d
  { toTileData := d
    weighted_score := some ws
    is_workable := some wk
    normalized_score :=
      some (if wk then (if avg = 0 then 0 else (jsRound (ws / avg * 100) : ℚ)) else 0)
    tier := none }

theorem normPass_scorePass (c : Config) (avg : ℚ) (t : Tile) :
    normPass avg (scorePass c t) = freshTile c avg t.toTileData := by
  unfold normPass scorePass freshTile
  by_cases h : workableB t.toTileData
  · simp [h]
  · simp [h]

theorem scorePass_of_not_workable {c : Config} {t : Tile}
    (h : workableB t.toTileData = false) (avg : ℚ) :
    scorePass c t = freshTile c avg t.toTileData := by
  unfold scorePass freshTile
  simp [h]

theorem scorePass_is_workable (c : Config) (t : Tile) :
    (scorePass c t).is_workable = some (workableB t.toTileData) := rfl

theorem scorePass_toTileData (c : Config) (t : Tile) :
    (scorePass c t).toTileData = t.toTileData := rfl

theorem scorePass_weighted_score (c : Config) (t : Tile) :
    (scorePass c t).weighted_score = some (calculateWeightedTileScore t.toTileData c) := rfl

/-- Everything but the `tier` field of a tile. -/
def SameButTier (a b : Tile) : Prop :=
  a.toTileData = b.toTileData ∧ a.weighted_score = b.weighted_score ∧
    a.is_workable = b.is_workable ∧ a.normalized_score = b.normalized_score

theorem sameButTier_refl (a : Tile) : SameButTier a a := ⟨rfl, rfl, rfl, rfl⟩

theorem sameButTier_trans {a b c : Tile} (h1 : SameButTier a b) (h2 : SameButTier b c) :
    SameButTier a c :=
  ⟨h1.1.trans h2.1, h1.2.1.trans h2.2.1, h1.2.2.1.trans h2.2.2.1, h1.2.2.2.trans h2.2.2.2⟩

/-- `l'` is `l` with possibly different `tier` fields: same length, same
original-position indices, and all other tile fields unchanged pointwise. -/
def TierOnly (l l' : List (ℕ × Tile)) : Prop :=
  l'.length = l.length ∧
    ∀ i (h : i < l.length) (h' : i < l'.length),
      (l'[i]).1 = (l[i]).1 ∧ SameButTier (l'[i]).2 (l[i]).2

theorem tierOnly_refl (l : List (ℕ × Tile)) : TierOnly l l :=
  ⟨rfl, fun _ _ _ => ⟨rfl, sameButTier_refl _⟩⟩

theorem tierOnly_trans {l1 l2 l3 : List (ℕ × Tile)} (h1 : TierOnly l1 l2)
    (h2 : TierOnly l2 l3) : TierOnly l1 l3 := by
  refine ⟨h2.1.trans h1.1, fun i h h' => ?_⟩
  have hm : i < l2.length := h1.1 ▸ h
  exact ⟨(h2.2 i hm h').1.trans (h1.2 i h hm).1,
    sameButTier_trans ((h2.2 i hm h').2) ((h1.2 i h hm).2)⟩

theorem applyTierRange_tierOnly (tier : String) (lo hi : ℕ) (l : List (ℕ × Tile)) :
    TierOnly l (applyTierRange tier lo hi l) := by
  unfold applyTierRange
  refine ⟨by simp, fun i h h' => ?_⟩
  rw [List.getElem_mapIdx]
  split
  · exact ⟨rfl, ⟨rfl, rfl, rfl, rfl⟩⟩
  · exact ⟨rfl, sameButTier_refl _⟩

theorem applyFallback_tierOnly (lowest : String) (l : List (ℕ × Tile)) :
    TierOnly l (applyFallback lowest l) := by
  unfold applyFallback
  refine ⟨by simp, fun i h h' => ?_⟩
  rw [List.getElem_map]
  split
  · exact ⟨rfl, ⟨rfl, rfl, rfl, rfl⟩⟩
  · exact ⟨rfl, sameButTier_refl _⟩

theorem assignTiersLoop_tierOnly (n : ℕ) (entries : List (String × ℚ)) :
    ∀ tIdx lastCutoff sorted th,
      TierOnly sorted (assignTiersLoop n entries tIdx lastCutoff sorted th).2 := by
  induction entries with
  | nil => intro tIdx lastCutoff sorted th; exact tierOnly_refl sorted
  | cons e rest ih =>
    intro tIdx lastCutoff sorted th
    rw [assignTiersLoop]
    split
    · exact ih _ _ sorted _
    · exact tierOnly_trans (applyTierRange_tierOnly e.1 lastCutoff _ sorted) (ih _ _ _ _)

/-- After the fallback pass, every entry carries a tier label. -/
theorem applyFallback_tier_isSome (lowest : String) (l : List (ℕ × Tile)) :
    ∀ e ∈ applyFallback lowest l, e.2.tier ≠ none := by
  unfold applyFallback
  intro e he
  obtain ⟨a, _, rfl⟩ := List.mem_map.mp he
  split
  · simp
  · simpa using by assumption

/-- Every entry of the working list points (via its recorded index) at a
workable position of `l2` and agrees with that tile except possibly in
`tier` — the functional counterpart of "the sorted array holds references
into the tiles array". -/
def GoodUpd (l2 : List Tile) (upd : List (ℕ × Tile)) : Prop :=
  ∀ e ∈ upd, ∃ h : e.1 < l2.length,
    (l2[e.1]).is_workable = some true ∧ SameButTier e.2 (l2[e.1])

/-- Every workable position of `l2` is represented in the working list. -/
def CoversWorkable (l2 : List Tile) (upd : List (ℕ × Tile)) : Prop :=
  ∀ i (h : i < l2.length), (l2[i]).is_workable = some true → ∃ e ∈ upd, e.1 = i

theorem goodUpd_enum_filter (l2 : List Tile) :
    GoodUpd l2 (l2.enum.filter (fun e => e.2.is_workable = some true)) := by
  intro e he
  obtain ⟨hmem, hwk⟩ := List.mem_filter.mp he
  obtain ⟨i, hi, hget⟩ := List.mem_iff_getElem.mp hmem
  rw [List.getElem_enum] at hget
  have hi' : i < l2.length := by simpa using hi
  subst hget
  exact ⟨hi', by simpa using hwk, sameButTier_refl _⟩

theorem coversWorkable_enum_filter (l2 : List Tile) :
    CoversWorkable l2 (l2.enum.filter (fun e => e.2.is_workable = some true)) := by
  intro i h hwk
  refine ⟨(i, l2[i]), List.mem_filter.mpr ⟨?_, by simpa using hwk⟩, rfl⟩
  have h' : i < l2.enum.length := by simpa using h
  have := List.getElem_enum l2 i h'
  exact this ▸ List.getElem_mem h'

theorem goodUpd_of_perm {l2 : List Tile} {l l' : List (ℕ × Tile)}
    (hp : l.Perm l') (h : GoodUpd l2 l) : GoodUpd l2 l' :=
  fun e he => h e (hp.mem_iff.mpr he)

theorem coversWorkable_of_perm {l2 : List Tile} {l l' : List (ℕ × Tile)}
    (hp : l.Perm l') (h : CoversWorkable l2 l) : CoversWorkable l2 l' := by
  intro i hi hwk
  obtain ⟨e, he, hfst⟩ := h i hi hwk
  exact ⟨e, hp.mem_iff.mp he, hfst⟩

theorem getElem_idx_congr {α : Type _} (l : List α) {i j : ℕ} (hij : i = j)
    (hi : i < l.length) (hj : j < l.length) : l[i] = l[j] := by
  subst hij
  rfl

theorem goodUpd_of_tierOnly {l2 : List Tile} {l l' : List (ℕ × Tile)}
    (ht : TierOnly l l') (h : GoodUpd l2 l) : GoodUpd l2 l' := by
  intro e he
  obtain ⟨i, hi, hget⟩ := List.mem_iff_getElem.mp he
  have hil : i < l.length := ht.1 ▸ hi
  obtain ⟨hfst, hsbt⟩ := ht.2 i hil hi
  obtain ⟨hlt, hwk, hsbt'⟩ := h l[i] (List.getElem_mem hil)
  rw [hget] at hfst hsbt
  have hlt2 : e.1 < l2.length := hfst ▸ hlt
  have hgc : l2[e.1] = l2[(l[i]).1] := getElem_idx_congr l2 hfst hlt2 hlt
  exact ⟨hlt2, by rw [hgc]; exact hwk, by rw [hgc]; exact sameButTier_trans hsbt hsbt'⟩

theorem coversWorkable_of_tierOnly {l2 : List Tile} {l l' : List (ℕ × Tile)}
    (ht : TierOnly l l') (h : CoversWorkable l2 l) : CoversWorkable l2 l' := by
  intro i hi hwk
  obtain ⟨e, he, hfst⟩ := h i hi hwk
  obtain ⟨j, hj, hget⟩ := List.mem_iff_getElem.mp he
  have hj' : j < l'.length := ht.1 ▸ hj
  refine ⟨l'[j], List.getElem_mem hj', ?_⟩
  rw [(ht.2 j hj hj').1, hget, hfst]

/-! ### The write-back step -/

theorem length_writeBack (l : List Tile) (upd : List (ℕ × Tile)) :
    (writeBack l upd).length = l.length := by
  simp [writeBack]

theorem getElem_writeBack (l : List Tile) (upd : List (ℕ × Tile)) (i : ℕ)
    (h : i < (writeBack l upd).length) (h' : i < l.length) :
    (writeBack l upd)[i] = (match upd.find? (fun u => u.1 == i) with
      | some u => u.2
      | none => l[i]) := by
  unfold writeBack
  rw [List.getElem_map, List.getElem_enum]

/-- On a non-workable position the write-back leaves the tile alone. -/
theorem writeBack_of_not_workable {l : List Tile} {upd : List (ℕ × Tile)}
    (hgood : GoodUpd l upd) (i : ℕ) (h : i < (writeBack l upd).length)
    (h' : i < l.length) (hwk : ¬ (l[i]).is_workable = some true) :
    (writeBack l upd)[i] = l[i] := by
  rw [getElem_writeBack l upd i h h']
  have hnone : upd.find? (fun u => u.1 == i) = none := by
    rw [List.find?_eq_none]
    intro u hu hbeq
    obtain ⟨hlt, hw, _⟩ := hgood u hu
    have heq : u.1 = i := by simpa using hbeq
    subst heq
    exact hwk hw
  rw [hnone]

/-- On a workable position the write-back installs a tile that agrees with
the scored tile except in `tier`, and whose `tier` satisfies whatever holds
of all entries of `upd`. -/
theorem writeBack_of_workable {l : List Tile} {upd : List (ℕ × Tile)}
    (hgood : GoodUpd l upd) (hcov : CoversWorkable l upd) (i : ℕ)
    (h : i < (writeBack l upd).length) (h' : i < l.length)
    (hwk : (l[i]).is_workable = some true) :
    ∃ e ∈ upd, e.1 = i ∧ (writeBack l upd)[i] = e.2 ∧ SameButTier e.2 (l[i]) := by
  rw [getElem_writeBack l upd i h h']
  obtain ⟨e, he, hfst⟩ := hcov i h' hwk
  have hsome : (upd.find? (fun u => u.1 == i)).isSome := by
    rw [List.find?_isSome]
    exact ⟨e, he, by simpa using hfst⟩
  obtain ⟨u, hu⟩ := Option.isSome_iff_exists.mp hsome
  have humem := List.mem_of_find?_eq_some hu
  have hufst : u.1 = i := by simpa using List.find?_some hu
  obtain ⟨hlt, _, hsbt⟩ := hgood u humem
  refine ⟨u, humem, hufst, by rw [hu], ?_⟩
  have heq : l[u.1] = l[i] := getElem_idx_congr l hufst hlt h'
  exact heq ▸ hsbt

/-! ### Structure of the tier-assignment stage -/

theorem tierAssignStage_length (c : Config) (l2 : List Tile) :
    (tierAssignStage c l2).1.length = l2.length := by
  simp only [tierAssignStage]
  split
  · rfl
  · split
    · rfl
    · exact length_writeBack _ _

/-- No workable tiles exist when the sorted workable list is empty. -/
theorem no_workable_of_sorted_empty {l2 : List Tile}
    (hlen : ((l2.enum.filter (fun e => e.2.is_workable = some true)).mergeSort
      (fun a b => decide (a.2.normalized_score.getD 0 ≤ b.2.normalized_score.getD 0))).length = 0)
    (i : ℕ) (h : i < l2.length) : ¬ (l2[i]).is_workable = some true := by
  intro hwk
  have hperm := List.mergeSort_perm (l2.enum.filter (fun e => e.2.is_workable = some true))
    (fun a b => decide (a.2.normalized_score.getD 0 ≤ b.2.normalized_score.getD 0))
  have hnil : (l2.enum.filter (fun e => e.2.is_workable = some true)) = [] := by
    have := hperm.length_eq
    rw [hlen] at this
    exact List.eq_nil_of_length_eq_zero this.symm
  have hmem : (i, l2[i]) ∈ l2.enum.filter (fun e => e.2.is_workable = some true) := by
    refine List.mem_filter.mpr ⟨?_, by simpa using hwk⟩
    have h' : i < l2.enum.length := by simpa using h
    have := List.getElem_enum l2 i h'
    exact this ▸ List.getElem_mem h'
  rw [hnil] at hmem
  exact absurd hmem (List.not_mem_nil _)

/-- Pointwise behaviour of the tier-assignment stage: every tile keeps all
fields except possibly `tier`; non-workable tiles are untouched; with a
non-empty percentile table every workable tile ends with a tier label. -/
theorem tierAssignStage_spec (c : Config) (l2 : List Tile) (i : ℕ) (h : i < l2.length)
    (h' : i < (tierAssignStage c l2).1.length) :
    SameButTier ((tierAssignStage c l2).1[i]) (l2[i]) ∧
    (¬ (l2[i]).is_workable = some true → (tierAssignStage c l2).1[i] = l2[i]) ∧
    (c.tier_percentiles.getD [] ≠ [] → (l2[i]).is_workable = some true →
      ((tierAssignStage c l2).1[i]).tier ≠ none) := by
  revert h'
  simp only [tierAssignStage]
  split
  case isTrue hlen =>
    intro h'
    refine ⟨sameButTier_refl _, fun _ => rfl, fun hne _ => absurd ?_ hne⟩
    exact List.eq_nil_of_length_eq_zero hlen
  case isFalse hlen =>
    split
    case isTrue hzero =>
      intro h'
      exact ⟨sameButTier_refl _, fun _ => rfl,
        fun _ hwk => absurd hwk (no_workable_of_sorted_empty hzero i h)⟩
    case isFalse hzero =>
      intro h'
      set sw := ((l2.enum.filter (fun e => e.2.is_workable = some true)).mergeSort
        (fun a b => decide (a.2.normalized_score.getD 0 ≤ b.2.normalized_score.getD 0))) with hsw
      set stc := ((c.tier_percentiles.getD []).mergeSort (fun a b => decide (a.2 ≤ b.2)))
        with hstc
      set lw := ((stc.head?).map Prod.fst).getD "F" with hlw
      set final := applyFallback lw (assignTiersLoop sw.length stc 0 0 sw []).2 with hfinal
      have hperm : (l2.enum.filter (fun e => e.2.is_workable = some true)).Perm sw :=
        (List.mergeSort_perm (l2.enum.filter (fun e => e.2.is_workable = some true))
          (fun a b => decide (a.2.normalized_score.getD 0 ≤ b.2.normalized_score.getD 0))).symm
      have hgood0 : GoodUpd l2 sw := goodUpd_of_perm hperm (goodUpd_enum_filter l2)
      have hcov0 : CoversWorkable l2 sw :=
        coversWorkable_of_perm hperm (coversWorkable_enum_filter l2)
      have htier : TierOnly sw final :=
        tierOnly_trans (assignTiersLoop_tierOnly sw.length stc 0 0 sw [])
          (applyFallback_tierOnly lw (assignTiersLoop sw.length stc 0 0 sw []).2)
      have hgood : GoodUpd l2 final := goodUpd_of_tierOnly htier hgood0
      have hcov : CoversWorkable l2 final := coversWorkable_of_tierOnly htier hcov0
      have h'wb : i < (writeBack l2 final).length := h'
      by_cases hwk : (l2[i]).is_workable = some true
      · obtain ⟨e, he, _, hout, hsbt⟩ := writeBack_of_workable hgood hcov i h'wb h hwk
        refine ⟨by rw [hout]; exact hsbt, fun hn => absurd hwk hn, fun _ _ => ?_⟩
        rw [hout]
        exact applyFallback_tier_isSome _ _ e (hfinal ▸ he)
      · have hout := writeBack_of_not_workable hgood i h'wb h hwk
        exact ⟨by rw [hout]; exact sameButTier_refl _, fun _ => hout,
          fun _ hw => absurd hw hwk⟩

/-! ### The scored-and-normalized tile list -/

theorem map_normPass_scorePass (tiles : List Tile) (c : Config) (avg : ℚ) :
    (tiles.map (scorePass c)).map (normPass avg) =
      tiles.map (fun t => freshTile c avg t.toTileData) := by
  rw [List.map_map]
  exact List.map_congr_left (fun a _ => normPass_scorePass c avg a)

theorem freshTile_is_workable (c : Config) (avg : ℚ) (d : TileData) :
    (freshTile c avg d).is_workable = some (workableB d) := rfl

theorem freshTile_toTileData (c : Config) (avg : ℚ) (d : TileData) :
    (freshTile c avg d).toTileData = d := rfl

theorem freshTile_weighted_score (c : Config) (avg : ℚ) (d : TileData) :
    (freshTile c avg d).weighted_score = some (calculateWeightedTileScore d c) := rfl

theorem freshTile_tier (c : Config) (avg : ℚ) (d : TileData) :
    (freshTile c avg d).tier = none := rfl

theorem freshTile_ns_of_not_workable {d : TileData} (c : Config) (avg : ℚ)
    (h : workableB d = false) : (freshTile c avg d).normalized_score = some 0 := by
  simp [freshTile, h]

/-- C1 (coverage): after `recalculateScoresAndTiers` with a non-empty,
correctly ordered percentile table, every workable tile carries a tier
label, and every non-workable tile has `weighted_score = 0`,
`normalized_score = 0` and a null tier. -/
theorem recalculateScoresAndTiers_coverage (tiles : List Tile) (c : Config)
    (hne : c.tier_percentiles.getD [] ≠ [])
    (_hord : ((c.tier_percentiles.getD []).map Prod.snd).Pairwise (· < ·))
    (_hlast : ((c.tier_percentiles.getD []).map Prod.snd).getLast? = some 1) :
    ∀ t ∈ (recalculateScoresAndTiers (some tiles) (some c)).1,
      (workableB t.toTileData = true → t.tier ≠ none) ∧
      (workableB t.toTileData = false →
        t.weighted_score = some 0 ∧ t.normalized_score = some 0 ∧ t.tier = none) := by
  intro t ht
  simp only [recalculateScoresAndTiers] at ht
  simp only [normalizeAndAssignTiers] at ht
  split at ht
  case isTrue hlen =>
    obtain ⟨t0, ht0, rfl⟩ := List.mem_map.mp ht
    have hnil := List.eq_nil_of_length_eq_zero hlen
    have hnw : ¬ (scorePass c t0).is_workable = some true := by
      have := List.filter_eq_nil_iff.mp hnil (scorePass c t0) (List.mem_map_of_mem _ ht0)
      simpa using this
    have hwb : workableB t0.toTileData = false := by
      rw [scorePass_is_workable] at hnw
      simpa using hnw
    constructor
    · intro hw
      rw [scorePass_toTileData] at hw
      rw [hw] at hwb
      exact absurd hwb (by simp)
    · intro _
      rw [scorePass_of_not_workable hwb 0]
      exact ⟨by rw [freshTile_weighted_score, calculateWeightedTileScore_of_not_workable c hwb],
        freshTile_ns_of_not_workable c 0 hwb, freshTile_tier c 0 _⟩
  case isFalse hlen =>
    rw [map_normPass_scorePass] at ht
    set avg := if 0 < ((tiles.map (scorePass c)).filter
        (fun t => t.is_workable = some true)).length then
      (((tiles.map (scorePass c)).filter (fun t => t.is_workable = some true)).map
        (fun t => t.weighted_score.getD 0)).sum /
        (((tiles.map (scorePass c)).filter (fun t => t.is_workable = some true)).length : ℚ)
      else 0 with havg
    set l2 := tiles.map (fun t => freshTile c avg t.toTileData) with hl2
    obtain ⟨i, h', hget⟩ := List.mem_iff_getElem.mp ht
    have h : i < l2.length := by
      have := tierAssignStage_length c l2
      omega
    have hlt : i < tiles.length := by
      have := h
      rw [hl2] at this
      simpa using this
    have hspec := tierAssignStage_spec c l2 i h h'
    have hil2 : l2[i] = freshTile c avg (tiles[i]).toTileData := by
      simp only [hl2, List.getElem_map]
    constructor
    · intro hw
      have hwb : workableB (tiles[i]).toTileData = true := by
        have hst : t.toTileData = (l2[i]).toTileData := by
          rw [← hget]; exact hspec.1.1
        rw [hst, hil2, freshTile_toTileData] at hw
        exact hw
      have hwk : (l2[i]).is_workable = some true := by
        rw [hil2, freshTile_is_workable, hwb]
      rw [← hget]
      exact hspec.2.2 hne hwk
    · intro hw
      have hwb : workableB (tiles[i]).toTileData = false := by
        have hst : t.toTileData = (l2[i]).toTileData := by
          rw [← hget]; exact hspec.1.1
        rw [hst, hil2, freshTile_toTileData] at hw
        exact hw
      have hwk : ¬ (l2[i]).is_workable = some true := by
        rw [hil2, freshTile_is_workable, hwb]
        simp
      have := hspec.2.1 hwk
      rw [← hget, this, hil2]
      exact ⟨by rw [freshTile_weighted_score, calculateWeightedTileScore_of_not_workable c hwb],
        freshTile_ns_of_not_workable c avg hwb, freshTile_tier c avg _⟩

/-- Witness for `recalculateScoresAndTiers_coverage`: a grass tile and an
ocean tile under the default percentile table. -/
theorem recalculateScoresAndTiers_coverage_witness :
    ((recalculateScoresAndTiers
      (some [{ terrain := some "TERRAIN_GRASS", base_food := some 2 },
             { terrain := some "TERRAIN_OCEAN" }])
      (some { tier_percentiles := some [("F", 1/20), ("E", 3/20), ("D", 7/20),
        ("C", 13/20), ("B", 17/20), ("A", 19/20), ("S", 1)] })).1.all
      (fun t => decide ((workableB t.toTileData = true → t.tier ≠ none) ∧
        (workableB t.toTileData = false →
          t.weighted_score = some 0 ∧ t.normalized_score = some 0
            ∧ t.tier = none)))) = true := by
  rw [List.all_eq_true]
  intro t ht
  rw [decide_eq_true_iff]
  exact recalculateScoresAndTiers_coverage _ _ (by simp)
    (by norm_num [List.pairwise_cons]) (by rfl) t ht

theorem freshTile_ns_of_avg_zero {d : TileData} (c : Config)
    (h : workableB d = true) : (freshTile c 0 d).normalized_score = some 0 := by
  simp [freshTile, h]

/-- The default tier percentile table of the repository's configuration. -/
def cfgStd : Config :=
  { tier_percentiles := some [("F", 1/20), ("E", 3/20), ("D", 7/20), ("C", 13/20),
      ("B", 17/20), ("A", 19/20), ("S", 1)] }

/-- A workable tile whose weighted score is 0. -/
def zeroScoreTile : Tile := { terrain := some "TERRAIN_GRASS" }

/-- C3 (amended): when the total (hence the mean) of `weighted_score` over
the workable tiles is 0, `normalizeAndAssignTiers` sets every workable
tile's `normalized_score` to 0 and returns without failing — but it does
*not* skip tier assignment: with a non-empty percentile table the workable
tiles still receive tier labels. -/
theorem normalizeAndAssignTiers_zero_mean (tiles : List Tile) (c : Config)
    (hmean : ((((tiles.map (scorePass c)).filter (fun t => t.is_workable = some true)).map
      (fun t => t.weighted_score.getD 0)).sum = 0)) :
    ∀ t ∈ (recalculateScoresAndTiers (some tiles) (some c)).1,
      workableB t.toTileData = true →
        t.normalized_score = some 0 ∧
        (c.tier_percentiles.getD [] ≠ [] → t.tier ≠ none) := by
  intro t ht hw
  simp only [recalculateScoresAndTiers] at ht
  simp only [normalizeAndAssignTiers] at ht
  split at ht
  case isTrue hlen =>
    obtain ⟨t0, ht0, rfl⟩ := List.mem_map.mp ht
    have hnil := List.eq_nil_of_length_eq_zero hlen
    have hnw : ¬ (scorePass c t0).is_workable = some true := by
      have := List.filter_eq_nil_iff.mp hnil (scorePass c t0) (List.mem_map_of_mem _ ht0)
      simpa using this
    rw [scorePass_is_workable] at hnw
    rw [scorePass_toTileData] at hw
    exact absurd (by rw [hw]) hnw
  case isFalse hlen =>
    rw [map_normPass_scorePass] at ht
    set avg := if 0 < ((tiles.map (scorePass c)).filter
        (fun t => t.is_workable = some true)).length then
      (((tiles.map (scorePass c)).filter (fun t => t.is_workable = some true)).map
        (fun t => t.weighted_score.getD 0)).sum /
        (((tiles.map (scorePass c)).filter (fun t => t.is_workable = some true)).length : ℚ)
      else 0 with havg
    have havg0 : avg = 0 := by
      rw [havg, hmean]
      split <;> simp
    set l2 := tiles.map (fun t => freshTile c avg t.toTileData) with hl2
    obtain ⟨i, h', hget⟩ := List.mem_iff_getElem.mp ht
    have h : i < l2.length := by
      have := tierAssignStage_length c l2
      omega
    have hlt : i < tiles.length := by
      have := h
      rw [hl2] at this
      simpa using this
    have hspec := tierAssignStage_spec c l2 i h h'
    have hil2 : l2[i] = freshTile c avg (tiles[i]).toTileData := by
      simp only [hl2, List.getElem_map]
    rw [havg0] at hil2
    have hwb : workableB (tiles[i]).toTileData = true := by
      have hst : t.toTileData = (l2[i]).toTileData := by
        rw [← hget]; exact hspec.1.1
      rw [hst, hil2, freshTile_toTileData] at hw
      exact hw
    have hwk : (l2[i]).is_workable = some true := by
      rw [hil2, freshTile_is_workable, hwb]
    constructor
    · have hns : t.normalized_score = (l2[i]).normalized_score := by
        rw [← hget]; exact hspec.1.2.2.2
      rw [hns, hil2]
      exact freshTile_ns_of_avg_zero c hwb
    · intro hne
      rw [← hget]
      exact hspec.2.2 hne hwk

/-- `Math.ceil` as a floor, so that concrete ceilings can be evaluated. -/
theorem rat_ceil_eq_neg_floor (x : ℚ) : ⌈x⌉ = -⌊-x⌋ := by
  rw [Int.floor_neg]
  ring

/-- A one-tier percentile table (trivially ordered, ending at 1). -/
def cfgF : Config := { tier_percentiles := some [("F", 1)] }

/-- Witness for `normalizeAndAssignTiers_zero_mean` at a concrete input. -/
theorem normalizeAndAssignTiers_zero_mean_witness :
    ((recalculateScoresAndTiers (some [zeroScoreTile]) (some cfgF)).1.all
      (fun t => decide (workableB t.toTileData = true →
        t.normalized_score = some 0 ∧
        (cfgF.tier_percentiles.getD [] ≠ [] → t.tier ≠ none)))) = true := by
  rw [List.all_eq_true]
  intro t ht
  rw [decide_eq_true_iff]
  exact normalizeAndAssignTiers_zero_mean [zeroScoreTile] cfgF (by
    norm_num [scorePass, calculateWeightedTileScore, workableB, zeroScoreTile,
      calculateYieldScore, calculateBalanceBonus, calculateResourceBonus,
      calculateFreshWaterBonus, calculateAppealBonus, calculateGoodyBonus,
      Config.yieldsW, Config.bonusesW, cfgF]
    simp) t ht

/-- C3 (counterexample to the claim as stated): on a single workable tile of
weighted score 0 the mean over workable tiles is 0, yet
`normalizeAndAssignTiers` does not leave the tile's tier null — tier
assignment still runs and stamps the lowest tier. -/
theorem normalizeAndAssignTiers_zero_mean_counterexample :
    ((((([zeroScoreTile].map (scorePass cfgF)).filter
        (fun t => t.is_workable = some true)).map
      (fun t => t.weighted_score.getD 0)).sum = 0)) ∧
    ((recalculateScoresAndTiers (some [zeroScoreTile]) (some cfgF)).1.map Tile.tier
      = [some "F"]) := by
  constructor
  · norm_num [scorePass, calculateWeightedTileScore, workableB, zeroScoreTile,
      calculateYieldScore, calculateBalanceBonus, calculateResourceBonus,
      calculateFreshWaterBonus, calculateAppealBonus, calculateGoodyBonus,
      Config.yieldsW, Config.bonusesW, cfgF]
    simp
  · have hs1 : ("TERRAIN_GRASS" = "TERRAIN_OCEAN") = False := by simp
    have hs2 : (("" : String) = "FEATURE_ICE") = False := by simp
    norm_num [hs1, hs2, recalculateScoresAndTiers, normalizeAndAssignTiers, tierAssignStage,
      scorePass, normPass, calculateWeightedTileScore, workableB, zeroScoreTile,
      calculateYieldScore, calculateBalanceBonus, calculateResourceBonus,
      calculateFreshWaterBonus, calculateAppealBonus, calculateGoodyBonus,
      Config.yieldsW, Config.bonusesW, cfgF, List.mergeSort, assignTiersLoop,
      applyTierRange, applyFallback, writeBack, rat_ceil_eq_neg_floor]

/-! ### Determinism / idempotence of the pipeline -/

theorem map_toTileData_filter_congr {l l' : List Tile} (p : TileData → Bool)
    (h : l.map Tile.toTileData = l'.map Tile.toTileData) :
    (l.filter (fun t => p t.toTileData)).map Tile.toTileData
      = (l'.filter (fun t => p t.toTileData)).map Tile.toTileData := by
  induction l generalizing l' with
  | nil =>
    cases l' with
    | nil => rfl
    | cons b l' => simp at h
  | cons a l ih =>
    cases l' with
    | nil => simp at h
    | cons b l' =>
      simp only [List.map_cons, List.cons.injEq] at h
      obtain ⟨hab, hrest⟩ := h
      simp only [List.filter_cons, hab]
      cases hp : p b.toTileData
      · simp [hp, hab, ih hrest]
      · simp [hp, hab, ih hrest]

/-- The workable filter on the scored list factors through the statics. -/
theorem scorePass_filter (ts : List Tile) (c : Config) :
    (ts.map (scorePass c)).filter (fun t => t.is_workable = some true)
      = (ts.filter (fun t => workableB t.toTileData)).map (scorePass c) := by
  rw [List.filter_map]
  congr 1
  apply List.filter_congr
  intro a _
  cases h : workableB a.toTileData <;>
    simp [Function.comp, scorePass_is_workable, h]

theorem scorePass_ws_map (l : List Tile) (c : Config) :
    (l.map (scorePass c)).map (fun t => t.weighted_score.getD 0)
      = (l.map Tile.toTileData).map (fun d => calculateWeightedTileScore d c) := by
  simp only [List.map_map]
  exact List.map_congr_left (fun a _ => rfl)

/-- The whole pipeline leaves the static tile data unchanged. -/
theorem normalizeAndAssignTiers_statics (ts : List Tile) (c : Config) :
    (normalizeAndAssignTiers ts c).1.map Tile.toTileData = ts.map Tile.toTileData := by
  simp only [normalizeAndAssignTiers]
  split
  case isTrue hlen =>
    rw [List.map_map]
    exact List.map_congr_left (fun a _ => rfl)
  case isFalse hlen =>
    rw [map_normPass_scorePass]
    set avg := if 0 < ((ts.map (scorePass c)).filter
        (fun t => t.is_workable = some true)).length then
      (((ts.map (scorePass c)).filter (fun t => t.is_workable = some true)).map
        (fun t => t.weighted_score.getD 0)).sum /
        (((ts.map (scorePass c)).filter (fun t => t.is_workable = some true)).length : ℚ)
      else 0 with havg
    set l2 := ts.map (fun t => freshTile c avg t.toTileData) with hl2
    apply List.ext_getElem
    · simp only [List.length_map, tierAssignStage_length, hl2]
    · intro i h1 h2
      rw [List.getElem_map, List.getElem_map]
      have hlenl2 : l2.length = ts.length := by rw [hl2]; simp
      have hb1 : i < l2.length := by
        have := tierAssignStage_length c l2
        simp only [List.length_map] at h1
        omega
      have hb2 : i < (tierAssignStage c l2).1.length := by
        simp only [List.length_map] at h1
        exact h1
      have hspec := tierAssignStage_spec c l2 i hb1 hb2
      have hts : i < ts.length := by omega
      have hil2 : l2[i] = freshTile c avg (ts[i]).toTileData := by
        simp only [hl2, List.getElem_map]
      exact hspec.1.1.trans (by rw [hil2]; rfl)

/-- The whole pipeline is a function of the static tile data only: any two
tile lists with the same statics produce the same result. -/
theorem normalizeAndAssignTiers_congr {ts us : List Tile} (c : Config)
    (h : ts.map Tile.toTileData = us.map Tile.toTileData) :
    normalizeAndAssignTiers ts c = normalizeAndAssignTiers us c := by
  have hfilter : (ts.filter (fun t => workableB t.toTileData)).map Tile.toTileData
      = (us.filter (fun t => workableB t.toTileData)).map Tile.toTileData :=
    map_toTileData_filter_congr workableB h
  have hlen : ((ts.map (scorePass c)).filter (fun t => t.is_workable = some true)).length
      = ((us.map (scorePass c)).filter (fun t => t.is_workable = some true)).length := by
    rw [scorePass_filter, scorePass_filter, List.length_map, List.length_map,
      ← List.length_map _ Tile.toTileData, hfilter, List.length_map]
  have hsum : (((ts.map (scorePass c)).filter (fun t => t.is_workable = some true)).map
        (fun t => t.weighted_score.getD 0)).sum
      = (((us.map (scorePass c)).filter (fun t => t.is_workable = some true)).map
        (fun t => t.weighted_score.getD 0)).sum := by
    rw [scorePass_filter, scorePass_filter, scorePass_ws_map, scorePass_ws_map, hfilter]
  simp only [normalizeAndAssignTiers]
  rw [hlen, hsum]
  split
  case isTrue hl =>
    -- no workable tiles on either side: each scored tile is a function of
    -- its statics, so the two scored lists agree.
    have hallts : ∀ t ∈ ts, workableB t.toTileData = false := by
      intro t ht
      have hnil : (us.map (scorePass c)).filter (fun t => t.is_workable = some true) = [] :=
        List.eq_nil_of_length_eq_zero hl
      rw [scorePass_filter] at hnil
      have : us.filter (fun t => workableB t.toTileData) = [] := by
        have := congrArg List.length hnil
        simp only [List.length_map] at this
        exact List.eq_nil_of_length_eq_zero this
      have hlen0 := congrArg List.length hfilter
      rw [this] at hlen0
      simp only [List.map_nil, List.length_map, List.length_nil] at hlen0
      have : ts.filter (fun t => workableB t.toTileData) = [] :=
        List.eq_nil_of_length_eq_zero hlen0
      have := List.filter_eq_nil_iff.mp this t ht
      simpa using this
    have hallus : ∀ t ∈ us, workableB t.toTileData = false := by
      intro t ht
      have hnil : (us.map (scorePass c)).filter (fun t => t.is_workable = some true) = [] :=
        List.eq_nil_of_length_eq_zero hl
      rw [scorePass_filter] at hnil
      have : us.filter (fun t => workableB t.toTileData) = [] := by
        have := congrArg List.length hnil
        simp only [List.length_map] at this
        exact List.eq_nil_of_length_eq_zero this
      have := List.filter_eq_nil_iff.mp this t ht
      simpa using this
    have hts : ts.map (scorePass c) = (ts.map Tile.toTileData).map (freshTile c 0) := by
      rw [List.map_map]
      exact List.map_congr_left (fun a ha => scorePass_of_not_workable (hallts a ha) 0)
    have hus : us.map (scorePass c) = (us.map Tile.toTileData).map (freshTile c 0) := by
      rw [List.map_map]
      exact List.map_congr_left (fun a ha => scorePass_of_not_workable (hallus a ha) 0)
    rw [hts, hus, h]
  case isFalse hl =>
    rw [map_normPass_scorePass, map_normPass_scorePass]
    rw [show ts.map (fun t => freshTile c _ t.toTileData)
        = (ts.map Tile.toTileData).map (freshTile c _) by rw [List.map_map]; rfl]
    rw [show us.map (fun t => freshTile c _ t.toTileData)
        = (us.map Tile.toTileData).map (freshTile c _) by rw [List.map_map]; rfl]
    rw [h]

/-- C5: `recalculateScoresAndTiers` is idempotent — a second run on its own
output (same weights, same percentile table) reproduces the tile list and
the thresholds exactly. -/
theorem recalculateScoresAndTiers_idempotent (ts : List Tile) (c : Config) :
    recalculateScoresAndTiers (some (recalculateScoresAndTiers (some ts) (some c)).1) (some c)
      = recalculateScoresAndTiers (some ts) (some c) := by
  simp only [recalculateScoresAndTiers]
  exact normalizeAndAssignTiers_congr c (normalizeAndAssignTiers_statics ts c)

/-! ### Tier monotonicity -/

/-- The tier labels in ascending order of quality: F < E < D < C < B < A < S. -/
def tierLabels : List String := ["F", "E", "D", "C", "B", "A", "S"]

/-- Rank of a tier label in the F < E < D < C < B < A < S order. -/
def tierValue (l : String) : ℕ := tierLabels.indexOf l

theorem length_applyTierRange (tier : String) (lo hi : ℕ) (l : List (ℕ × Tile)) :
    (applyTierRange tier lo hi l).length = l.length := by
  simp [applyTierRange]

theorem getElem_applyTierRange (tier : String) (lo hi : ℕ) (l : List (ℕ × Tile)) (i : ℕ)
    (h : i < (applyTierRange tier lo hi l).length) (h' : i < l.length) :
    (applyTierRange tier lo hi l)[i] =
      if lo ≤ i ∧ i ≤ hi ∧ (l[i]).2.tier = none then
        ((l[i]).1, { (l[i]).2 with tier := some tier })
      else l[i] := by
  unfold applyTierRange
  rw [List.getElem_mapIdx]

/-- The percentile-walk invariant: processing the suffix `tp.drop k` of a
percentile table whose labels appear in strictly ascending rank order (entry
`j` has rank `j`) and whose last percentile is 1, starting from a state in
which positions below `lastCutoff` carry ranks `< k` monotonically and
positions from `lastCutoff` on are unassigned, ends with every position
assigned and ranks monotone along the sorted order. -/
theorem assignTiersLoop_assigns (tp : List (String × ℚ)) (n : ℕ) (hn1 : 1 ≤ n)
    (hrank : ∀ j (hj : j < tp.length), tierValue ((tp[j]).1) = j)
    (hlast : ∀ (hb : tp.length - 1 < tp.length), (tp[tp.length - 1]).2 = 1) :
    ∀ (m k lastCutoff : ℕ) (sorted : List (ℕ × Tile)) (th : List (String × ℚ)),
      tp.length - k = m →
      k ≤ tp.length →
      sorted.length = n →
      lastCutoff ≤ n →
      (k = 0 → lastCutoff = 0) →
      (lastCutoff = n ∨ k < tp.length) →
      (∀ i (h : i < sorted.length), lastCutoff ≤ i → ((sorted[i]).2).tier = none) →
      (∀ i (h : i < sorted.length), i < lastCutoff →
        ∃ l, ((sorted[i]).2).tier = some l ∧ tierValue l < k) →
      (∀ i i' (h : i < sorted.length) (h' : i' < sorted.length), i ≤ i' → i' < lastCutoff →
        ∀ l l', ((sorted[i]).2).tier = some l → ((sorted[i']).2).tier = some l' →
          tierValue l ≤ tierValue l') →
      (∀ i (h : i < (assignTiersLoop n (tp.drop k) k lastCutoff sorted th).2.length),
        ∃ l, (((assignTiersLoop n (tp.drop k) k lastCutoff sorted th).2[i]).2).tier = some l) ∧
      (∀ i i' (h : i < (assignTiersLoop n (tp.drop k) k lastCutoff sorted th).2.length)
        (h' : i' < (assignTiersLoop n (tp.drop k) k lastCutoff sorted th).2.length),
        i ≤ i' → ∀ l l',
          (((assignTiersLoop n (tp.drop k) k lastCutoff sorted th).2[i]).2).tier = some l →
          (((assignTiersLoop n (tp.drop k) k lastCutoff sorted th).2[i']).2).tier = some l' →
          tierValue l ≤ tierValue l') := by
  intro m
  induction m with
  | zero =>
    intro k lastCutoff sorted th hm hk hsl hlc hk0 hor hA hB hM
    have hkeq : k = tp.length := by omega
    subst hkeq
    rw [List.drop_length] at *
    simp only [assignTiersLoop]
    have hlcn : lastCutoff = n := by
      rcases hor with h | h
      · exact h
      · omega
    constructor
    · intro i h
      obtain ⟨l, hl, _⟩ := hB i h (by omega)
      exact ⟨l, hl⟩
    · intro i i' h h' hle l l' hl hl'
      exact hM i i' h h' hle (by omega) l l' hl hl'
  | succ m ih =>
    intro k lastCutoff sorted th hm hk hsl hlc hk0 hor hA hB hM
    have hkl : k < tp.length := by omega
    rcases hE : tp[k] with ⟨label, p⟩
    rw [List.drop_eq_getElem_cons hkl, hE]
    rw [assignTiersLoop]
    have hlabelrank : tierValue label = k := by
      have := hrank k hkl
      rw [hE] at this
      exact this
    set cutoffZ : ℤ := max 0 (min (⌈(n : ℚ) * p⌉ - 1) ((n : ℤ) - 1)) with hcz
    have hcutoff_le : cutoffZ.toNat ≤ n - 1 := by
      have h1 : cutoffZ ≤ (n : ℤ) - 1 := by
        rw [hcz]
        omega
      omega
    have hlastcase : k = tp.length - 1 → cutoffZ.toNat = n - 1 := by
      intro hkL
      have hp1 : p = 1 := by
        have hb : tp.length - 1 < tp.length := by omega
        have hv := hlast hb
        have he : tp[tp.length - 1] = (label, p) := by
          rw [getElem_idx_congr tp (show tp.length - 1 = k by omega) hb hkl, hE]
        rw [he] at hv
        exact hv
      have hceil : ⌈(n : ℚ) * p⌉ = (n : ℤ) := by
        rw [hp1, mul_one]
        exact Int.ceil_natCast n
      rw [hcz, hceil]
      omega
    split
    case isTrue hcond =>
      -- skipped tier: state unchanged, rank bound grows
      have hor' : lastCutoff = n ∨ k + 1 < tp.length := by
        by_cases hkL : k + 1 < tp.length
        · exact Or.inr hkL
        · have : k = tp.length - 1 := by omega
          have := hlastcase this
          omega
      exact ih (k + 1) lastCutoff sorted th (by omega) (by omega) hsl hlc (by omega) hor' hA
        (fun i h hi => by
          obtain ⟨l, hl, hv⟩ := hB i h hi
          exact ⟨l, hl, by omega⟩) hM
    case isFalse hcond =>
      -- assigned tier: positions lastCutoff..cutoff get rank k
      have hlocut : lastCutoff ≤ cutoffZ.toNat := by
        by_cases hk0' : k = 0
        · have := hk0 hk0'
          omega
        · rcases not_and_or.mp hcond with hc | hc
          · omega
          · omega
      set sorted' := applyTierRange label lastCutoff cutoffZ.toNat sorted with hs'
      have hsl' : sorted'.length = n := by
        rw [hs', length_applyTierRange, hsl]
      have hget' : ∀ i (h : i < sorted.length) (h2 : i < sorted'.length),
          sorted'[i] =
            if lastCutoff ≤ i ∧ i ≤ cutoffZ.toNat ∧ ((sorted[i]).2).tier = none then
              ((sorted[i]).1, { (sorted[i]).2 with tier := some label })
            else sorted[i] := by
        intro i h h2
        exact getElem_applyTierRange label lastCutoff cutoffZ.toNat sorted i
          (by rw [length_applyTierRange]; omega) h
      have hor' : cutoffZ.toNat + 1 = n ∨ k + 1 < tp.length := by
        by_cases hkL : k + 1 < tp.length
        · exact Or.inr hkL
        · have : k = tp.length - 1 := by omega
          have := hlastcase this
          omega
      refine ih (k + 1) (cutoffZ.toNat + 1) sorted' _ (by omega) (by omega) hsl' (by omega)
        (by omega) hor' ?_ ?_ ?_
      · -- positions beyond the new cutoff remain unassigned
        intro i h hi
        rw [hget' i (by omega) (by omega)]
        rw [if_neg (by omega)]
        exact hA i (by omega) (by omega)
      · -- positions up to the new cutoff carry ranks < k+1
        intro i h hi
        rw [hget' i (by omega) (by omega)]
        by_cases hio : i < lastCutoff
        · rw [if_neg (by omega)]
          obtain ⟨l, hl, hv⟩ := hB i (by omega) hio
          exact ⟨l, hl, by omega⟩
        · have hnone := hA i (by omega) (by omega)
          rw [if_pos ⟨by omega, by omega, hnone⟩]
          exact ⟨label, rfl, by omega⟩
      · -- monotone ranks below the new cutoff
        intro i i' h h' hle hi' l l' hl hl'
        rw [hget' i (by omega) (by omega)] at hl
        rw [hget' i' (by omega) (by omega)] at hl'
        by_cases hio : i < lastCutoff <;> by_cases hio' : i' < lastCutoff
        · rw [if_neg (by omega)] at hl
          rw [if_neg (by omega)] at hl'
          exact hM i i' (by omega) (by omega) hle hio' l l' hl hl'
        · rw [if_neg (by omega)] at hl
          have hnone := hA i' (by omega) (by omega)
          rw [if_pos ⟨by omega, by omega, hnone⟩] at hl'
          obtain ⟨lo, hlo, hvo⟩ := hB i (by omega) hio
          have hll : l = lo := by
            rw [hl] at hlo
            simpa using hlo
          have hl'label : l' = label := by simpa using hl'.symm
          rw [hl'label, hlabelrank, hll]
          omega
        · omega
        · have hnone := hA i (by omega) (by omega)
          rw [if_pos ⟨by omega, by omega, hnone⟩] at hl
          have hnone' := hA i' (by omega) (by omega)
          rw [if_pos ⟨by omega, by omega, hnone'⟩] at hl'
          have h1 : l = label := by simpa using hl.symm
          have h2 : l' = label := by simpa using hl'.symm
          rw [h1, h2]

/-- If every entry already has a tier, the lowest-tier fallback is the
identity. -/
theorem applyFallback_of_all_some {lw : String} {l : List (ℕ × Tile)}
    (h : ∀ i (hi : i < l.length), ∃ lab, ((l[i]).2).tier = some lab) :
    applyFallback lw l = l := by
  unfold applyFallback
  apply List.ext_getElem (by simp)
  intro i h1 h2
  rw [List.getElem_map]
  obtain ⟨lab, hlab⟩ := h i h2
  rw [if_neg (by rw [hlab]; simp)]

/-- The stable sort leaves the list pairwise ordered by normalized score. -/
theorem mergeSort_ns_pairwise (l : List (ℕ × Tile)) :
    (l.mergeSort (fun a b =>
      decide (a.2.normalized_score.getD 0 ≤ b.2.normalized_score.getD 0))).Pairwise
      (fun a b => a.2.normalized_score.getD 0 ≤ b.2.normalized_score.getD 0) := by
  have h := @List.sorted_mergeSort (ℕ × Tile)
    (fun a b =>
      decide (a.2.normalized_score.getD 0 ≤ b.2.normalized_score.getD 0))
    (fun a b c h1 h2 => by
      simp only [decide_eq_true_eq] at h1 h2 ⊢
      exact le_trans h1 h2)
    (fun a b => by
      rcases le_total (a.2.normalized_score.getD 0) (b.2.normalized_score.getD 0) with h | h <;>
        simp [h]) l
  exact h.imp (fun hd => of_decide_eq_true hd)

/-- A `TierOnly` update does not disturb the normalized-score ordering. -/
theorem tierOnly_pairwise_ns {l l' : List (ℕ × Tile)} (ht : TierOnly l l')
    (h : l.Pairwise (fun a b => a.2.normalized_score.getD 0 ≤ b.2.normalized_score.getD 0)) :
    l'.Pairwise (fun a b => a.2.normalized_score.getD 0 ≤ b.2.normalized_score.getD 0) := by
  rw [List.pairwise_iff_get] at h ⊢
  intro i j hij
  have hi : (i : ℕ) < l.length := ht.1 ▸ i.2
  have hj : (j : ℕ) < l.length := ht.1 ▸ j.2
  have h1 := (ht.2 i hi i.2).2.2.2.2
  have h2 := (ht.2 j hj j.2).2.2.2.2
  have := h ⟨i, hi⟩ ⟨j, hj⟩ (by simpa using hij)
  simp only [List.get_eq_getElem] at *
  rw [h1, h2]
  exact this

/-- C2: with a correctly ordered percentile table carrying the standard
labels, a workable tile with a strictly higher normalized score never gets a
strictly lower tier (tier order F < E < D < C < B < A < S). -/
theorem recalculateScoresAndTiers_monotone (tiles : List Tile) (c : Config)
    (htp : (c.tier_percentiles.getD []).map Prod.fst = tierLabels)
    (hinc : ((c.tier_percentiles.getD []).map Prod.snd).Pairwise (· < ·))
    (hlast : ((c.tier_percentiles.getD []).map Prod.snd).getLast? = some 1) :
    ∀ tA ∈ (recalculateScoresAndTiers (some tiles) (some c)).1,
      ∀ tB ∈ (recalculateScoresAndTiers (some tiles) (some c)).1,
      tA.is_workable = some true → tB.is_workable = some true →
      tB.normalized_score.getD 0 < tA.normalized_score.getD 0 →
      ∃ la lb, tA.tier = some la ∧ tB.tier = some lb ∧ tierValue lb ≤ tierValue la := by
  set tp := c.tier_percentiles.getD [] with htpdef
  have hlen7 : tp.length = 7 := by
    have := congrArg List.length htp
    simpa using this
  intro tA hA tB hB hwA hwB hgt
  simp only [recalculateScoresAndTiers, normalizeAndAssignTiers] at hA hB
  by_cases hlen : ((tiles.map (scorePass c)).filter
      (fun t => t.is_workable = some true)).length = 0
  · rw [if_pos hlen] at hA
    obtain ⟨t0, ht0, rfl⟩ := List.mem_map.mp hA
    have hnil := List.eq_nil_of_length_eq_zero hlen
    have hnw := List.filter_eq_nil_iff.mp hnil (scorePass c t0) (List.mem_map_of_mem _ ht0)
    simp only [decide_eq_true_eq] at hnw
    exact absurd hwA hnw
  · rw [if_neg hlen] at hA hB
    rw [map_normPass_scorePass] at hA hB
    set avg := if 0 < ((tiles.map (scorePass c)).filter
        (fun t => t.is_workable = some true)).length then
      (((tiles.map (scorePass c)).filter (fun t => t.is_workable = some true)).map
        (fun t => t.weighted_score.getD 0)).sum /
        (((tiles.map (scorePass c)).filter (fun t => t.is_workable = some true)).length : ℚ)
      else 0 with havg
    set l2 := tiles.map (fun t => freshTile c avg t.toTileData) with hl2
    simp only [tierAssignStage] at hA hB
    rw [if_neg (by rw [← htpdef, hlen7]; omega)] at hA hB
    set sw := ((l2.enum.filter (fun e => e.2.is_workable = some true)).mergeSort
      (fun a b => decide (a.2.normalized_score.getD 0 ≤ b.2.normalized_score.getD 0)))
      with hsw
    by_cases hzero : sw.length = 0
    · rw [if_pos hzero] at hA
      obtain ⟨i, hi, hget⟩ := List.mem_iff_getElem.mp hA
      have := no_workable_of_sorted_empty (by rw [← hsw]; exact hzero) i hi
      rw [hget] at this
      exact absurd hwA this
    · rw [if_neg hzero] at hA hB
      -- the percentile table is already sorted by percentile
      have hstc : tp.mergeSort (fun a b => decide (a.2 ≤ b.2)) = tp := by
        apply List.mergeSort_of_sorted
        have : tp.Pairwise (fun a b => a.2 < b.2) := List.pairwise_map.mp hinc
        exact this.imp (fun hab => by simpa using le_of_lt hab)
      rw [← htpdef] at hA hB
      rw [hstc] at hA hB
      set res := assignTiersLoop sw.length tp 0 0 sw [] with hres
      set lw := ((tp.head?).map Prod.fst).getD "F" with hlw
      -- entries of the sorted workable list start with null tiers
      have hswnone : ∀ i (h : i < sw.length), ((sw[i]).2).tier = none := by
        intro i h
        have hmem : sw[i] ∈ sw := List.getElem_mem h
        have hperm := List.mergeSort_perm (l2.enum.filter
          (fun e => e.2.is_workable = some true))
          (fun a b => decide (a.2.normalized_score.getD 0 ≤ b.2.normalized_score.getD 0))
        have hmem2 := hperm.mem_iff.mp hmem
        obtain ⟨hmem3, _⟩ := List.mem_filter.mp hmem2
        obtain ⟨j, hj, hgetj⟩ := List.mem_iff_getElem.mp hmem3
        rw [List.getElem_enum] at hgetj
        have hjl : j < l2.length := by simpa using hj
        have htn : (l2[j]).tier = none := by
          simp only [hl2, List.getElem_map]
          rfl
        rw [← hgetj]
        exact htn
      -- run the percentile-walk invariant
      have hloop := assignTiersLoop_assigns tp sw.length (by omega)
        (fun j hj => by
          have hj7 : j < tierLabels.length := by
            have hlab : tierLabels.length = 7 := rfl
            omega
          have h1 : (tp[j]).1 = tierLabels[j] := by
            simp only [← htp, List.getElem_map]
          rw [h1]
          have hv : ∀ jj (hh : jj < tierLabels.length), tierValue (tierLabels[jj]) = jj := by
            decide
          exact hv j hj7)
        (fun hb => by
          have hg := List.getLast?_eq_getElem? (tp.map Prod.snd)
          rw [hlast] at hg
          have hlm : (tp.map Prod.snd).length = 7 := by simpa using hlen7
          have h6 : (tp.map Prod.snd).length - 1 < (tp.map Prod.snd).length := by omega
          rw [List.getElem?_eq_getElem h6] at hg
          have hv := (Option.some.inj hg).symm
          simp only [List.length_map, List.getElem_map] at hv
          exact hv)
        tp.length 0 0 sw [] (by omega) (by omega) rfl (by omega) (fun _ => rfl)
        (Or.inr (by omega))
        (fun i h _ => hswnone i h)
        (fun i h hi => absurd hi (by omega))
        (fun i i' h h' hle hi' l l' hl hl' => absurd hi' (by omega))
      rw [List.drop_zero, ← hres] at hloop
      obtain ⟨hallsome, hmono⟩ := hloop
      have hfb : applyFallback lw res.2 = res.2 := applyFallback_of_all_some hallsome
      rw [hfb] at hA hB
      -- the final sorted list is still ordered by normalized score
      have htier : TierOnly sw res.2 := by
        rw [hres]
        exact assignTiersLoop_tierOnly sw.length tp 0 0 sw []
      have hsorted : res.2.Pairwise
          (fun a b => a.2.normalized_score.getD 0 ≤ b.2.normalized_score.getD 0) := by
        apply tierOnly_pairwise_ns htier
        rw [hsw]
        exact mergeSort_ns_pairwise _
      -- positions of the two tiles
      have hperm := (List.mergeSort_perm (l2.enum.filter
        (fun e => e.2.is_workable = some true))
        (fun a b => decide (a.2.normalized_score.getD 0 ≤ b.2.normalized_score.getD 0))).symm
      have hgood : GoodUpd l2 res.2 :=
        goodUpd_of_tierOnly htier (goodUpd_of_perm (hsw ▸ hperm) (goodUpd_enum_filter l2))
      have hcov : CoversWorkable l2 res.2 :=
        coversWorkable_of_tierOnly htier
          (coversWorkable_of_perm (hsw ▸ hperm) (coversWorkable_enum_filter l2))
      have hfind : ∀ t, t ∈ writeBack l2 res.2 → t.is_workable = some true →
          ∃ j, ∃ hj : j < res.2.length, (res.2[j]).2 = t := by
        intro t ht hwt
        obtain ⟨i, hi, hget⟩ := List.mem_iff_getElem.mp ht
        have hil : i < l2.length := by
          have := length_writeBack l2 res.2
          omega
        by_cases hwk : (l2[i]).is_workable = some true
        · obtain ⟨e, he, _, hout, _⟩ := writeBack_of_workable hgood hcov i hi hil hwk
          obtain ⟨j, hj, hgetj⟩ := List.mem_iff_getElem.mp he
          refine ⟨j, hj, ?_⟩
          rw [hgetj, ← hget, hout]
        · have hout := writeBack_of_not_workable hgood i hi hil hwk
          rw [← hget, hout] at hwt
          exact absurd hwt hwk
      obtain ⟨jA, hjA, hgetA⟩ := hfind tA hA hwA
      obtain ⟨jB, hjB, hgetB⟩ := hfind tB hB hwB
      obtain ⟨la, hla⟩ := hallsome jA hjA
      obtain ⟨lb, hlb⟩ := hallsome jB hjB
      have hABle : jB < jA := by
        rcases lt_trichotomy jA jB with h | h | h
        · exfalso
          have := (List.pairwise_iff_get.mp hsorted) ⟨jA, hjA⟩ ⟨jB, hjB⟩ h
          simp only [List.get_eq_getElem] at this
          rw [hgetA, hgetB] at this
          exact absurd this (not_le.mpr hgt)
        · exfalso
          have heqAB : tA = tB := by
            rw [← hgetA, ← hgetB]
            exact congrArg _ (getElem_idx_congr res.2 h hjA hjB)
          rw [heqAB] at hgt
          exact absurd hgt (lt_irrefl _)
        · exact h
      refine ⟨la, lb, ?_, ?_, hmono jB jA hjB hjA (by omega) lb la ?_ ?_⟩
      · rw [← hgetA]; exact hla
      · rw [← hgetB]; exact hlb
      · exact hlb
      · exact hla

/-! ### Concrete two-tile run used as the monotonicity witness -/

def tileA : Tile := { terrain := some "TERRAIN_GRASS", base_food := some 2 }

def tileB : Tile := { terrain := some "TERRAIN_GRASS", base_food := some 1 }

def tileNA : Tile :=
  { terrain := some "TERRAIN_GRASS", base_food := some 2, weighted_score := some 2,
    is_workable := some true, normalized_score := some 133, tier := none }

def tileNB : Tile :=
  { terrain := some "TERRAIN_GRASS", base_food := some 1, weighted_score := some 1,
    is_workable := some true, normalized_score := some 67, tier := none }

def tileAOut : Tile :=
  { terrain := some "TERRAIN_GRASS", base_food := some 2, weighted_score := some 2,
    is_workable := some true, normalized_score := some 133, tier := some "C" }

def tileBOut : Tile :=
  { terrain := some "TERRAIN_GRASS", base_food := some 1, weighted_score := some 1,
    is_workable := some true, normalized_score := some 67, tier := some "F" }

set_option maxHeartbeats 4000000 in
theorem two_tile_run_scored : normalizeAndAssignTiers [tileA, tileB] cfgStd
    = tierAssignStage cfgStd [tileNA, tileNB] := by
  have hs1 : ("TERRAIN_GRASS" = "TERRAIN_OCEAN") = False := by simp
  have hs2 : (("" : String) = "FEATURE_ICE") = False := by simp
  norm_num [hs1, hs2, normalizeAndAssignTiers, scorePass, normPass,
    calculateWeightedTileScore, workableB, tileA, tileB, tileNA, tileNB,
    calculateYieldScore, calculateBalanceBonus, calculateResourceBonus,
    calculateFreshWaterBonus, calculateAppealBonus, calculateGoodyBonus,
    Config.yieldsW, Config.bonusesW, cfgStd, jsRound]

set_option maxHeartbeats 4000000 in
theorem two_tile_run_tiered : tierAssignStage cfgStd [tileNA, tileNB]
    = ([tileAOut, tileBOut], [("F", 67), ("C", 133)]) := by
  have hstc : (cfgStd.tier_percentiles.getD []).mergeSort
      (fun a b => decide (a.2 ≤ b.2)) = cfgStd.tier_percentiles.getD [] :=
    List.mergeSort_of_sorted (by norm_num [cfgStd, List.pairwise_cons])
  have ho : ∀ s : String, (some s = (none : Option String)) = False := fun s => by simp
  norm_num [ho, tierAssignStage, hstc, cfgStd, List.mergeSort, List.enum, List.enumFrom,
    assignTiersLoop, applyTierRange, applyFallback, writeBack, rat_ceil_eq_neg_floor,
    tileNA, tileNB, tileAOut, tileBOut, List.merge]

/-- Witness for `recalculateScoresAndTiers_monotone` on two concrete tiles
(scores 133 and 67, tiers C and F). -/
theorem recalculateScoresAndTiers_monotone_witness :
    ∃ la lb, tileAOut.tier = some la ∧ tileBOut.tier = some lb ∧
      tierValue lb ≤ tierValue la := by
  have hfull : (recalculateScoresAndTiers (some [tileA, tileB]) (some cfgStd)).1
      = [tileAOut, tileBOut] := by
    show (normalizeAndAssignTiers [tileA, tileB] cfgStd).1 = _
    rw [two_tile_run_scored, two_tile_run_tiered]
  exact recalculateScoresAndTiers_monotone [tileA, tileB] cfgStd (by rfl)
    (by norm_num [cfgStd, List.pairwise_cons]) (by rfl)
    tileAOut (by rw [hfull]; simp) tileBOut (by rw [hfull]; simp)
    (by rfl) (by rfl) (by norm_num [tileAOut, tileBOut])

/-! ## Basic facts about the scoring engine -/

/-- C4: the weighted tile score is clamped at zero for every tile and
every weight configuration. -/
theorem calculateWeightedTileScore_nonneg (tile : TileData) (c : Config) :
    0 ≤ calculateWeightedTileScore tile c := by
  unfold calculateWeightedTileScore
  split
  · exact le_refl 0
  · exact le_max_left 0 _

/-- C10: on a null/non-array `tiles` argument or a falsy `config`,
`recalculateScoresAndTiers` returns empty thresholds and does not touch any
tile (the tile list passes through unchanged). -/
theorem recalculateScoresAndTiers_invalid_input (ts : List Tile) (c : Option Config) :
    recalculateScoresAndTiers none c = ([], []) ∧
    recalculateScoresAndTiers (some ts) none = (ts, []) :=
  ⟨rfl, rfl⟩

/-! ## Geometry of the offset hexagonal grid

The parity-dependent offset adjacency of `getDirectNeighbors` is the image
of the standard axial hexagonal adjacency under the coordinate change
`(q, r) ↦ (q - ⌊(r+1)/2⌋, r)`.  Everything about the breadth-first radius
query reduces to counting axial hex balls. -/

/-- Offset → axial coordinate change (`/` on `ℤ` is floor division for the
positive divisor 2). -/
def phiAx (c : Coord) : Coord := (c.1 - (c.2 + 1) / 2, c.2)

/-- Axial → offset coordinate change, inverse of `phiAx`. -/
def psiAx (c : Coord) : Coord := (c.1 + (c.2 + 1) / 2, c.2)

/-- The six axial directions of a hexagonal grid. -/
def axialDirs : List Coord := [(1, 0), (0, 1), (-1, 1), (-1, 0), (0, -1), (1, -1)]

/-- Hexagonal (axial) distance from the origin is at most `d`. -/
def hexLe (v : Coord) (d : ℕ) : Prop :=
  v.1.natAbs ≤ d ∧ v.2.natAbs ≤ d ∧ (v.1 + v.2).natAbs ≤ d

instance (v : Coord) (d : ℕ) : Decidable (hexLe v d) := by
  unfold hexLe
  infer_instance

theorem psiAx_phiAx (v : Coord) : psiAx (phiAx v) = v := by
  rcases v with ⟨x, y⟩
  simp [phiAx, psiAx]

theorem phiAx_psiAx (v : Coord) : phiAx (psiAx v) = v := by
  rcases v with ⟨x, y⟩
  simp [phiAx, psiAx]

/-- Offset adjacency is axial adjacency through the coordinate change. -/
theorem mem_getDirectNeighbors (u v : Coord) :
    v ∈ getDirectNeighbors u ↔
      ((phiAx v).1 - (phiAx u).1, (phiAx v).2 - (phiAx u).2) ∈ axialDirs := by
  rcases u with ⟨q, r⟩
  rcases v with ⟨x, y⟩
  rcases Int.emod_two_eq r with hpar | hpar
  · simp only [getDirectNeighbors]
    rw [if_pos (show ((q : ℤ), r).2 % 2 = 0 from hpar)]
    simp only [phiAx, axialDirs, List.map_cons, List.map_nil, List.mem_cons,
      List.not_mem_nil, or_false, Prod.mk.injEq]
    exact or_congr (by omega) (or_congr (by omega) (or_congr (by omega)
      (or_congr (by omega) (or_congr (by omega) (by omega)))))
  · simp only [getDirectNeighbors]
    rw [if_neg (show ¬ ((q : ℤ), r).2 % 2 = 0 by simp only; omega)]
    simp only [phiAx, axialDirs, List.map_cons, List.map_nil, List.mem_cons,
      List.not_mem_nil, or_false, Prod.mk.injEq]
    exact or_congr (by omega) (or_congr (by omega) (or_congr (by omega)
      (or_congr (by omega) (or_congr (by omega) (by omega)))))

/-- The neighbor set of a coordinate. -/
def nbrFinset (u : Coord) : Finset Coord := (getDirectNeighbors u).toFinset

/-- The radius-`d` set of the offset grid: `d`-fold neighbor closure of the
center.  This is the set the breadth-first expansion of
`getCoordsWithinRadius` visits. -/
def ballO (c : Coord) : ℕ → Finset Coord
  | 0 => {c}
  | d + 1 => ballO c d ∪ (ballO c d).biUnion nbrFinset

theorem ballO_subset_succ (c : Coord) (d : ℕ) : ballO c d ⊆ ballO c (d + 1) := by
  rw [show ballO c (d + 1) = ballO c d ∪ (ballO c d).biUnion nbrFinset from rfl]
  exact Finset.subset_union_left

theorem mem_nbrFinset (u v : Coord) :
    v ∈ nbrFinset u ↔
      ((phiAx v).1 - (phiAx u).1, (phiAx v).2 - (phiAx u).2) ∈ axialDirs := by
  rw [nbrFinset, List.mem_toFinset]
  exact mem_getDirectNeighbors u v

theorem hexLe_mono {w : Coord} {d : ℕ} (h : hexLe w d) : hexLe w (d + 1) := by
  simp only [hexLe] at *
  omega

theorem hexLe_step {w s : Coord} {d : ℕ} (hs : s ∈ axialDirs)
    (h : hexLe (w.1 - s.1, w.2 - s.2) d) : hexLe w (d + 1) := by
  simp only [axialDirs, List.mem_cons, List.not_mem_nil, or_false] at hs
  rcases w with ⟨a, b⟩
  simp only [hexLe] at h ⊢
  rcases hs with rfl | rfl | rfl | rfl | rfl | rfl <;> (simp only at h; omega)

theorem hexLe_descent {a b : ℤ} {d : ℕ} (h1 : hexLe (a, b) (d + 1))
    (h2 : ¬ hexLe (a, b) d) :
    ∃ s ∈ axialDirs, hexLe (a - s.1, b - s.2) d := by
  simp only [hexLe] at h1 h2
  rcases lt_trichotomy a 0 with ha | ha | ha <;> rcases lt_trichotomy b 0 with hb | hb | hb
  · exact ⟨(0, -1), by decide, by simp only [hexLe]; omega⟩
  · exact ⟨(-1, 0), by decide, by simp only [hexLe]; omega⟩
  · exact ⟨(-1, 1), by decide, by simp only [hexLe]; omega⟩
  · exact ⟨(0, -1), by decide, by simp only [hexLe]; omega⟩
  · exfalso
    omega
  · exact ⟨(0, 1), by decide, by simp only [hexLe]; omega⟩
  · exact ⟨(1, -1), by decide, by simp only [hexLe]; omega⟩
  · exact ⟨(1, 0), by decide, by simp only [hexLe]; omega⟩
  · exact ⟨(1, 0), by decide, by simp only [hexLe]; omega⟩

theorem mem_ballO (c : Coord) (d : ℕ) (v : Coord) :
    v ∈ ballO c d ↔
      hexLe ((phiAx v).1 - (phiAx c).1, (phiAx v).2 - (phiAx c).2) d := by
  induction d generalizing v with
  | zero =>
    rw [show ballO c 0 = {c} from rfl]
    simp only [Finset.mem_singleton]
    constructor
    · rintro rfl
      simp only [hexLe]
      omega
    · intro h
      simp only [hexLe] at h
      have h1 : phiAx v = phiAx c := by
        rcases v with ⟨x, y⟩
        rcases c with ⟨q, r⟩
        simp only [phiAx, Prod.mk.injEq] at h ⊢
        omega
      have h2 := congrArg psiAx h1
      rwa [psiAx_phiAx, psiAx_phiAx] at h2
  | succ d ih =>
    rw [show ballO c (d + 1) = ballO c d ∪ (ballO c d).biUnion nbrFinset from rfl]
    simp only [Finset.mem_union, Finset.mem_biUnion]
    constructor
    · rintro (h | ⟨u, hu, hv⟩)
      · exact hexLe_mono ((ih v).mp h)
      · have hs := (mem_getDirectNeighbors u v).mp (List.mem_toFinset.mp hv)
        apply hexLe_step hs
        show hexLe ((phiAx v).1 - (phiAx c).1 - ((phiAx v).1 - (phiAx u).1),
          (phiAx v).2 - (phiAx c).2 - ((phiAx v).2 - (phiAx u).2)) d
        have e1 : (phiAx v).1 - (phiAx c).1 - ((phiAx v).1 - (phiAx u).1)
            = (phiAx u).1 - (phiAx c).1 := by ring
        have e2 : (phiAx v).2 - (phiAx c).2 - ((phiAx v).2 - (phiAx u).2)
            = (phiAx u).2 - (phiAx c).2 := by ring
        rw [e1, e2]
        exact (ih u).mp hu
    · intro h
      by_cases hd : hexLe ((phiAx v).1 - (phiAx c).1, (phiAx v).2 - (phiAx c).2) d
      · exact Or.inl ((ih v).mpr hd)
      · obtain ⟨s, hs, hres⟩ := hexLe_descent h hd
        refine Or.inr ⟨psiAx ((phiAx v).1 - s.1, (phiAx v).2 - s.2), ?_, ?_⟩
        · apply (ih _).mpr
          rw [phiAx_psiAx]
          show hexLe ((phiAx v).1 - s.1 - (phiAx c).1, (phiAx v).2 - s.2 - (phiAx c).2) d
          have e1 : (phiAx v).1 - s.1 - (phiAx c).1
              = (phiAx v).1 - (phiAx c).1 - s.1 := by ring
          have e2 : (phiAx v).2 - s.2 - (phiAx c).2
              = (phiAx v).2 - (phiAx c).2 - s.2 := by ring
          rw [e1, e2]
          exact hres
        · apply List.mem_toFinset.mpr
          apply (mem_getDirectNeighbors _ _).mpr
          rw [phiAx_psiAx]
          show ((phiAx v).1 - ((phiAx v).1 - s.1), (phiAx v).2 - ((phiAx v).2 - s.2))
            ∈ axialDirs
          have e : ((phiAx v).1 - ((phiAx v).1 - s.1), (phiAx v).2 - ((phiAx v).2 - s.2))
              = s := by
            rcases s with ⟨s1, s2⟩
            simp only [Prod.mk.injEq]
            constructor <;> ring
          rw [e]
          exact hs


/-- The axial hex ball of radius `d` as a concrete finite set. -/
def axFin (d : ℕ) : Finset Coord :=
  ((Finset.Icc (-(d : ℤ)) d) ×ˢ (Finset.Icc (-(d : ℤ)) d)).filter
    (fun w => (w.1 + w.2).natAbs ≤ d)

theorem mem_axFin (d : ℕ) (w : Coord) : w ∈ axFin d ↔ hexLe w d := by
  rcases w with ⟨a, b⟩
  simp only [axFin, Finset.mem_filter, Finset.mem_product, Finset.mem_Icc, hexLe]
  omega

theorem sum_row (d : ℕ) :
    ∑ x ∈ Finset.Icc (-(d : ℤ)) d, (2 * d + 1 - x.natAbs) = 3 * d * d + 3 * d + 1 := by
  induction d with
  | zero => simp
  | succ d ih =>
    have hout : Finset.Icc (-(d + 1 : ℕ) : ℤ) ((d + 1 : ℕ) : ℤ)
        = insert (-(d + 1 : ℕ) : ℤ) (insert ((d + 1 : ℕ) : ℤ) (Finset.Icc (-(d : ℤ)) d)) := by
      ext x
      simp only [Finset.mem_Icc, Finset.mem_insert]
      push_cast
      omega
    have hn1 : (-(d + 1 : ℕ) : ℤ) ∉ insert ((d + 1 : ℕ) : ℤ) (Finset.Icc (-(d : ℤ)) d) := by
      simp only [Finset.mem_insert, Finset.mem_Icc]
      push_cast
      omega
    have hn2 : ((d + 1 : ℕ) : ℤ) ∉ Finset.Icc (-(d : ℤ)) d := by
      simp only [Finset.mem_Icc]
      push_cast
      omega
    rw [hout, Finset.sum_insert hn1, Finset.sum_insert hn2]
    have hcong : ∑ x ∈ Finset.Icc (-(d : ℤ)) d, (2 * (d + 1) + 1 - x.natAbs)
        = ∑ x ∈ Finset.Icc (-(d : ℤ)) d, ((2 * d + 1 - x.natAbs) + 2) :=
      Finset.sum_congr rfl (fun x hx => by
        simp only [Finset.mem_Icc] at hx
        omega)
    rw [hcong, Finset.sum_add_distrib, ih, Finset.sum_const]
    have hcard : (Finset.Icc (-(d : ℤ)) d).card = 2 * d + 1 := by
      rw [Int.card_Icc]
      omega
    rw [hcard, smul_eq_mul]
    have ha1 : ((-(d + 1 : ℕ) : ℤ)).natAbs = d + 1 := by omega
    have ha2 : (((d + 1 : ℕ) : ℤ)).natAbs = d + 1 := by omega
    rw [ha1, ha2]
    have hs1 : 2 * (d + 1) + 1 - (d + 1) = d + 2 := by omega
    rw [hs1]
    ring

theorem card_axFin (d : ℕ) : (axFin d).card = 3 * d * d + 3 * d + 1 := by
  have hbi : axFin d = (Finset.Icc (-(d : ℤ)) d).biUnion
      (fun x => (Finset.Icc (max (-(d : ℤ)) (-(d : ℤ) - x)) (min (d : ℤ) ((d : ℤ) - x))).image
        (fun y => (x, y))) := by
    ext w
    rcases w with ⟨a, b⟩
    simp only [axFin, Finset.mem_filter, Finset.mem_product, Finset.mem_Icc,
      Finset.mem_biUnion, Finset.mem_image, Prod.mk.injEq]
    constructor
    · rintro ⟨⟨h1, h2⟩, h3⟩
      exact ⟨a, by omega, b, by constructor <;> omega, rfl, rfl⟩
    · rintro ⟨x, hx, y, hy, rfl, rfl⟩
      constructor
      · constructor <;> omega
      · omega
  rw [hbi, Finset.card_biUnion]
  · have hrow : ∀ x ∈ Finset.Icc (-(d : ℤ)) d,
        ((Finset.Icc (max (-(d : ℤ)) (-(d : ℤ) - x)) (min (d : ℤ) ((d : ℤ) - x))).image
          (fun y => (x, y))).card = 2 * d + 1 - x.natAbs := by
      intro x hx
      simp only [Finset.mem_Icc] at hx
      rw [Finset.card_image_of_injective _ (fun y1 y2 h => by
        simpa using congrArg Prod.snd h)]
      rw [Int.card_Icc]
      omega
    rw [Finset.sum_congr rfl hrow]
    exact sum_row d
  · intro x hx y hy hxy
    simp only [Finset.disjoint_left, Finset.mem_image]
    rintro w ⟨a, ha, rfl⟩ ⟨b, hb, hab⟩
    exact hxy (congrArg Prod.fst hab).symm

theorem card_ballO (c : Coord) (d : ℕ) : (ballO c d).card = 3 * d * d + 3 * d + 1 := by
  have himg : ballO c d = (axFin d).image
      (fun w => psiAx ((phiAx c).1 + w.1, (phiAx c).2 + w.2)) := by
    ext v
    rw [mem_ballO]
    simp only [Finset.mem_image]
    constructor
    · intro h
      refine ⟨((phiAx v).1 - (phiAx c).1, (phiAx v).2 - (phiAx c).2),
        (mem_axFin _ _).mpr h, ?_⟩
      have e : ((phiAx c).1 + ((phiAx v).1 - (phiAx c).1),
          (phiAx c).2 + ((phiAx v).2 - (phiAx c).2)) = phiAx v := by
        simp only [Prod.ext_iff]
        constructor <;> ring
      rw [e, psiAx_phiAx]
    · rintro ⟨w, hw, rfl⟩
      rw [phiAx_psiAx]
      show hexLe ((phiAx c).1 + w.1 - (phiAx c).1, (phiAx c).2 + w.2 - (phiAx c).2) d
      have e : ((phiAx c).1 + w.1 - (phiAx c).1, (phiAx c).2 + w.2 - (phiAx c).2) = w := by
        rcases w with ⟨w1, w2⟩
        simp only [Prod.mk.injEq]
        constructor <;> ring
      rw [e]
      exact (mem_axFin _ _).mp hw
  rw [himg, Finset.card_image_of_injective, card_axFin]
  intro a b h
  have h2 := congrArg phiAx h
  rw [phiAx_psiAx, phiAx_psiAx] at h2
  rcases a with ⟨a1, a2⟩
  rcases b with ⟨b1, b2⟩
  simp only [Prod.mk.injEq] at h2 ⊢
  omega


/-! ## Focus (debug) mode -/

/-- C8: a canvas click while focus mode is already active is a no-op — the
center and all three computed sets stay exactly as the first entry left
them. -/
theorem onCanvasClick_active_noop (isDebugModeEnabled : Bool) (map : CoordMap)
    (clickedHex : Option Hexagon) (s : DebugState)
    (h : s.isDebugModeActive = true) :
    onCanvasClick isDebugModeEnabled map clickedHex s = s := by
  unfold onCanvasClick
  rw [h]
  simp

/-- Witness for `onCanvasClick_active_noop` at a concrete active state. -/
theorem onCanvasClick_active_noop_witness :
    (DebugState.mk true (some ((0, 0), 0)) ∅ ∅ ∅).isDebugModeActive = true ∧
    onCanvasClick true [((0, 0), ((0, 0), 0))] (some ((1, 1), 1))
      (DebugState.mk true (some ((0, 0), 0)) ∅ ∅ ∅) =
      DebugState.mk true (some ((0, 0), 0)) ∅ ∅ ∅ :=
  ⟨rfl, onCanvasClick_active_noop true [((0, 0), ((0, 0), 0))] (some ((1, 1), 1))
    (DebugState.mk true (some ((0, 0), 0)) ∅ ∅ ∅) rfl⟩



theorem getDirectNeighbors_nodup (u : Coord) : (getDirectNeighbors u).Nodup := by
  rcases u with ⟨q, r⟩
  rcases Int.emod_two_eq r with hpar | hpar
  · simp only [getDirectNeighbors]
    rw [if_pos (show ((q : ℤ), r).2 % 2 = 0 from hpar)]
    simp only [List.map_cons, List.map_nil, List.nodup_cons, List.mem_cons,
      List.not_mem_nil, or_false, List.nodup_nil, and_true, Prod.mk.injEq, not_or,
      not_false_eq_true]
    omega
  · simp only [getDirectNeighbors]
    rw [if_neg (show ¬ ((q : ℤ), r).2 % 2 = 0 by simp only; omega)]
    simp only [List.map_cons, List.map_nil, List.nodup_cons, List.mem_cons,
      List.not_mem_nil, or_false, List.nodup_nil, and_true, Prod.mk.injEq, not_or,
      not_false_eq_true]
    omega

/-- What the `forEach` over the six neighbors does, as a filter. -/
theorem expandNeighbors_eq (d : ℤ) :
    ∀ (nbs : List Coord), nbs.Nodup → ∀ visited results queue,
      expandNeighbors d nbs visited results queue =
        ((nbs.filter (fun v => decide (¬ v ∈ visited))).reverse ++ visited,
         results ++ nbs.filter (fun v => decide (¬ v ∈ visited)),
         queue ++ (nbs.filter (fun v => decide (¬ v ∈ visited))).map (fun v => (v, d + 1))) := by
  intro nbs
  induction nbs with
  | nil => intro _ visited results queue; simp [expandNeighbors]
  | cons nb rest ih =>
    intro hnd visited results queue
    have hndr : rest.Nodup := hnd.of_cons
    have hnbr : nb ∉ rest := (List.nodup_cons.mp hnd).1
    rw [expandNeighbors]
    by_cases hv : nb ∈ visited
    · rw [if_pos hv]
      rw [ih hndr visited results queue]
      have hfil : (nb :: rest).filter (fun v => decide (¬ v ∈ visited))
          = rest.filter (fun v => decide (¬ v ∈ visited)) := by
        rw [List.filter_cons]
        simp [hv]
      rw [hfil]
    · rw [if_neg hv]
      rw [ih hndr (nb :: visited) (results ++ [nb]) (queue ++ [(nb, d + 1)])]
      have hfil : (nb :: rest).filter (fun v => decide (¬ v ∈ visited))
          = nb :: rest.filter (fun v => decide (¬ v ∈ visited)) := by
        rw [List.filter_cons]
        simp [hv]
      have hfil2 : rest.filter (fun v => decide (¬ v ∈ nb :: visited))
          = rest.filter (fun v => decide (¬ v ∈ visited)) := by
        apply List.filter_congr
        intro a ha
        have : a ≠ nb := fun h => hnbr (h ▸ ha)
        simp [List.mem_cons, this]
      rw [hfil2, hfil]
      simp only [List.reverse_cons, List.append_assoc, List.singleton_append,
        List.map_cons, List.cons_append, Prod.mk.injEq]
      exact ⟨rfl, rfl, rfl⟩

/-- Neighbor closure of a set. -/
def nbrsOf (s : Finset Coord) : Finset Coord := s.biUnion nbrFinset

/-- The coordinates first reached at distance exactly `d`. -/
def newAt (c : Coord) : ℕ → Finset Coord
  | 0 => {c}
  | d + 1 => ballO c (d + 1) \ ballO c d

theorem ballO_succ_eq (c : Coord) (d : ℕ) :
    ballO c (d + 1) = ballO c d ∪ nbrsOf (ballO c d) := rfl

theorem ballO_zero (c : Coord) : ballO c 0 = {c} := rfl

theorem newAt_zero (c : Coord) : newAt c 0 = {c} := rfl

theorem newAt_subset (c : Coord) (d : ℕ) : newAt c d ⊆ ballO c d := by
  cases d with
  | zero => exact Finset.Subset.refl _
  | succ d => exact Finset.sdiff_subset

theorem ballO_mono (c : Coord) {d e : ℕ} (h : d ≤ e) : ballO c d ⊆ ballO c e := by
  induction e with
  | zero =>
    have h0 : d = 0 := by omega
    rw [h0]
  | succ e ih =>
    by_cases hde : d = e + 1
    · rw [hde]
    · exact (ih (by omega)).trans (ballO_subset_succ c e)

theorem ballO_stab (c : Coord) {d : ℕ} (h : ballO c (d + 1) = ballO c d) :
    ∀ e, d ≤ e → ballO c e = ballO c d := by
  intro e
  induction e with
  | zero => intro h0; rw [Nat.le_zero.mp h0]
  | succ e ih =>
    intro hde
    by_cases hd : d = e + 1
    · rw [hd]
    · have he : d ≤ e := by omega
      rw [ballO_succ_eq, ih he, ← ballO_succ_eq]
      exact h

/-- Expanding only the frontier reaches the whole next shell. -/
theorem nbrsOf_newAt (c : Coord) (d : ℕ) :
    nbrsOf (newAt c d) \ ballO c d = ballO c (d + 1) \ ballO c d := by
  cases d with
  | zero => rw [newAt_zero, ← ballO_zero, ballO_succ_eq, Finset.union_sdiff_left]
  | succ e =>
    have hsplit : ballO c (e + 1) = ballO c e ∪ newAt c (e + 1) := by
      rw [show newAt c (e + 1) = ballO c (e + 1) \ ballO c e from rfl,
        Finset.union_sdiff_self_eq_union]
      exact (Finset.union_eq_right.mpr (ballO_subset_succ c e)).symm
    rw [ballO_succ_eq c (e + 1)]
    ext v
    simp only [Finset.mem_sdiff, Finset.mem_union, nbrsOf, Finset.mem_biUnion]
    constructor
    · rintro ⟨⟨u, hu, hv⟩, hnb⟩
      exact ⟨Or.inr ⟨u, (newAt_subset c (e + 1)) hu, hv⟩, hnb⟩
    · rintro ⟨h | ⟨u, hu, hv⟩, hnb⟩
      · exact absurd h hnb
      · have hu2 : u ∈ ballO c e ∪ newAt c (e + 1) := hsplit ▸ hu
        rcases Finset.mem_union.mp hu2 with hue | hun
        · exfalso
          apply hnb
          rw [ballO_succ_eq]
          exact Finset.mem_union_right _ (Finset.mem_biUnion.mpr ⟨u, hue, hv⟩)
        · exact ⟨⟨u, hun, hv⟩, hnb⟩


theorem newAt_succ (c : Coord) (d : ℕ) :
    newAt c (d + 1) = ballO c (d + 1) \ ballO c d := rfl

/-- Loop invariant of the breadth-first search in `getCoordsWithinRadius`:
the queue splits into a block `Q1` of frontier nodes at distance `d` and a
block `Q2` of next-shell nodes at distance `d + 1`. -/
structure BfsInv (c : Coord) (R : ℕ) (d : ℕ) (Q1 Q2 : List (Coord × ℤ))
    (visited results : List Coord) : Prop where
  hdR : d ≤ R
  hQ1tag : ∀ p ∈ Q1, p.2 = (d : ℤ)
  hQ2tag : ∀ p ∈ Q2, p.2 = (d : ℤ) + 1
  hQ1nd : (Q1.map Prod.fst).Nodup
  hQ2nd : (Q2.map Prod.fst).Nodup
  hQ1sub : ((Q1.map Prod.fst).toFinset : Finset Coord) ⊆ newAt c d
  hQ2eq : d < R → ((Q2.map Prod.fst).toFinset : Finset Coord)
    = nbrsOf (newAt c d \ (Q1.map Prod.fst).toFinset) \ ballO c d
  hQ2R : d = R → Q2 = []
  hvis : visited.toFinset = ballO c d ∪ (Q2.map Prod.fst).toFinset
  hresnd : results.Nodup
  hres : results.toFinset = visited.toFinset

theorem bfsLoop_cons (radius : ℤ) (fuel : ℕ) (x : Coord) (t : ℤ)
    (rest : List (Coord × ℤ)) (visited results : List Coord) :
    bfsLoop radius (fuel + 1) ((x, t) :: rest) visited results
      = if t < radius then
          bfsLoop radius fuel
            (expandNeighbors t (getDirectNeighbors x) visited results rest).2.2
            (expandNeighbors t (getDirectNeighbors x) visited results rest).1
            (expandNeighbors t (getDirectNeighbors x) visited results rest).2.1
        else bfsLoop radius fuel rest visited results := rfl


/-- The unvisited direct neighbors, in source order: exactly the nodes the
`forEach` body pushes. -/
def newFrom (x : Coord) (visited : List Coord) : List Coord :=
  (getDirectNeighbors x).filter (fun v => decide (¬ v ∈ visited))

theorem newFrom_nodup (x : Coord) (visited : List Coord) :
    (newFrom x visited).Nodup := (getDirectNeighbors_nodup x).filter _

theorem mem_newFrom (x : Coord) (visited : List Coord) (v : Coord) :
    v ∈ newFrom x visited ↔ v ∈ getDirectNeighbors x ∧ ¬ v ∈ visited := by
  simp [newFrom, List.mem_filter]

theorem newFrom_toFinset (x : Coord) (visited : List Coord) :
    (newFrom x visited).toFinset = nbrFinset x \ visited.toFinset := by
  ext v
  simp [newFrom, nbrFinset, List.mem_filter]

theorem bfsLoop_cons_lt (radius : ℤ) (fuel : ℕ) (x : Coord) (t : ℤ)
    (rest : List (Coord × ℤ)) (visited results : List Coord)
    (hlt : t < radius) :
    bfsLoop radius (fuel + 1) ((x, t) :: rest) visited results
      = bfsLoop radius fuel
          (rest ++ (newFrom x visited).map (fun v => (v, t + 1)))
          ((newFrom x visited).reverse ++ visited)
          (results ++ newFrom x visited) := by
  rw [bfsLoop_cons, if_pos hlt,
    expandNeighbors_eq t (getDirectNeighbors x) (getDirectNeighbors_nodup x)
      visited results rest]
  rfl

theorem bfsLoop_cons_ge (radius : ℤ) (fuel : ℕ) (x : Coord) (t : ℤ)
    (rest : List (Coord × ℤ)) (visited results : List Coord)
    (hge : ¬ t < radius) :
    bfsLoop radius (fuel + 1) ((x, t) :: rest) visited results
      = bfsLoop radius fuel rest visited results := by
  rw [bfsLoop_cons, if_neg hge]

/-- One dequeue step preserves the invariant; stated with the induction
hypothesis over the remaining fuel as an argument. -/
theorem bfsLoop_pop (c : Coord) (radius : ℤ) (R : ℕ) (hR : (R : ℤ) = radius)
    (fuel : ℕ)
    (ih : ∀ d Q1 Q2 visited results, BfsInv c R d Q1 Q2 visited results →
      Q1.length + Q2.length + ((ballO c R).card - visited.toFinset.card) < fuel →
      (bfsLoop radius fuel (Q1 ++ Q2) visited results).Nodup ∧
      (bfsLoop radius fuel (Q1 ++ Q2) visited results).toFinset = ballO c R)
    (d : ℕ) (x : Coord) (t : ℤ) (Q1' Q2 : List (Coord × ℤ))
    (visited results : List Coord)
    (hinv : BfsInv c R d ((x, t) :: Q1') Q2 visited results)
    (hfuel : ((x, t) :: Q1').length + Q2.length
      + ((ballO c R).card - visited.toFinset.card) < fuel + 1) :
    (bfsLoop radius (fuel + 1) (((x, t) :: Q1') ++ Q2) visited results).Nodup ∧
    (bfsLoop radius (fuel + 1) (((x, t) :: Q1') ++ Q2) visited results).toFinset
      = ballO c R := by
  have ht : t = (d : ℤ) := hinv.hQ1tag (x, t) (List.mem_cons_self _ _)
  subst ht
  have hxmem : x ∈ newAt c d := by
    apply hinv.hQ1sub
    simp [List.map_cons, List.toFinset_cons]
  have hQ1'nd : (Q1'.map Prod.fst).Nodup := by
    have h := hinv.hQ1nd
    simp only [List.map_cons, List.nodup_cons] at h
    exact h.2
  have hxQ1' : x ∉ Q1'.map Prod.fst := by
    have h := hinv.hQ1nd
    simp only [List.map_cons, List.nodup_cons] at h
    exact h.1
  have hQ2_vis : ((Q2.map Prod.fst).toFinset : Finset Coord) ⊆ visited.toFinset := by
    rw [hinv.hvis]
    exact Finset.subset_union_right
  rw [List.cons_append]
  by_cases hd : d < R
  · -- the dequeued node is strictly inside the radius: expand it
    have hlt : (d : ℤ) < radius := by omega
    rw [bfsLoop_cons_lt radius fuel x ((d : ℤ)) (Q1' ++ Q2) visited results hlt,
      List.append_assoc]
    have hnewNd : (newFrom x visited).Nodup := newFrom_nodup x visited
    have hnew_not_vis : ∀ v ∈ newFrom x visited, ¬ v ∈ visited := by
      intro v hv
      exact ((mem_newFrom x visited v).mp hv).2
    have hmapfst : (Q2 ++ (newFrom x visited).map (fun v => (v, (d : ℤ) + 1))).map Prod.fst
        = Q2.map Prod.fst ++ newFrom x visited := by
      rw [List.map_append, List.map_map]
      simp [Function.comp_def]
    have hsplitQ1 : newAt c d \ (Q1'.map Prod.fst).toFinset
        = insert x (newAt c d \ ((List.map Prod.fst ((x, (d : ℤ)) :: Q1')).toFinset)) := by
      ext v
      simp only [Finset.mem_sdiff, Finset.mem_insert, List.map_cons,
        List.toFinset_cons, List.mem_toFinset]
      constructor
      · rintro ⟨hvn, hvq⟩
        by_cases hvx : v = x
        · exact Or.inl hvx
        · exact Or.inr ⟨hvn, fun h => h.elim hvx hvq⟩
      · rintro (rfl | ⟨hvn, hvq⟩)
        · exact ⟨hxmem, hxQ1'⟩
        · exact ⟨hvn, fun h => hvq (Or.inr h)⟩
    have hnbrsplit : nbrsOf (newAt c d \ (Q1'.map Prod.fst).toFinset)
        = nbrFinset x
          ∪ nbrsOf (newAt c d \ ((List.map Prod.fst ((x, (d : ℤ)) :: Q1')).toFinset)) := by
      rw [hsplitQ1]
      simp only [nbrsOf, Finset.biUnion_insert]
    have hnbr_sub : nbrFinset x ⊆ ballO c (d + 1) := by
      have h1 : nbrFinset x ⊆ nbrsOf (ballO c d) :=
        Finset.subset_biUnion_of_mem nbrFinset (newAt_subset c d hxmem)
      have h2 : nbrsOf (ballO c d) ⊆ ballO c (d + 1) := by
        rw [ballO_succ_eq]
        exact Finset.subset_union_right
      exact h1.trans h2
    have hQ2old_sub : ((Q2.map Prod.fst).toFinset : Finset Coord) ⊆ ballO c (d + 1) := by
      rw [hinv.hQ2eq hd]
      refine Finset.sdiff_subset.trans ?_
      have h3 : nbrsOf (newAt c d \ ((List.map Prod.fst ((x, (d : ℤ)) :: Q1')).toFinset))
          ⊆ nbrsOf (ballO c d) := by
        apply Finset.biUnion_subset_biUnion_of_subset_left
        exact Finset.sdiff_subset.trans (newAt_subset c d)
      have h2 : nbrsOf (ballO c d) ⊆ ballO c (d + 1) := by
        rw [ballO_succ_eq]
        exact Finset.subset_union_right
      exact h3.trans h2
    refine ih d Q1' (Q2 ++ (newFrom x visited).map (fun v => (v, (d : ℤ) + 1)))
      ((newFrom x visited).reverse ++ visited) (results ++ newFrom x visited)
      ⟨hinv.hdR, ?_, ?_, hQ1'nd, ?_, ?_, ?_, ?_, ?_, ?_, ?_⟩ ?_
    · -- Q1 tags
      intro p hp
      exact hinv.hQ1tag p (List.mem_cons_of_mem _ hp)
    · -- Q2 tags
      intro p hp
      rcases List.mem_append.mp hp with h | h
      · exact hinv.hQ2tag p h
      · rcases List.mem_map.mp h with ⟨v, _, rfl⟩
        rfl
    · -- Q2 nodup
      rw [hmapfst]
      refine hinv.hQ2nd.append hnewNd ?_
      intro a ha hanew
      have h1 : a ∈ visited :=
        List.mem_toFinset.mp (hQ2_vis (List.mem_toFinset.mpr ha))
      exact hnew_not_vis a hanew h1
    · -- Q1 subset of the frontier shell
      intro v hv
      apply hinv.hQ1sub
      simp only [List.map_cons, List.toFinset_cons, Finset.mem_insert]
      exact Or.inr hv
    · -- Q2 characterization
      intro _
      rw [hmapfst, List.toFinset_append, newFrom_toFinset, hinv.hvis,
        hinv.hQ2eq hd, hnbrsplit, Finset.union_sdiff_distrib]
      ext v
      simp only [Finset.mem_union, Finset.mem_sdiff]
      tauto
    · -- at the radius the next shell is empty (vacuous here)
      intro h
      exact absurd h (by omega)
    · -- visited characterization
      rw [List.toFinset_append, List.toFinset_reverse, newFrom_toFinset,
        hmapfst, List.toFinset_append, newFrom_toFinset, hinv.hvis]
      ext v
      simp only [Finset.mem_union, Finset.mem_sdiff]
      tauto
    · -- results nodup
      refine hinv.hresnd.append hnewNd ?_
      intro a ha hanew
      have h1 : a ∈ visited := by
        have h2 : a ∈ results.toFinset := List.mem_toFinset.mpr ha
        rw [hinv.hres] at h2
        exact List.mem_toFinset.mp h2
      exact hnew_not_vis a hanew h1
    · -- results track visited
      rw [List.toFinset_append, List.toFinset_append, List.toFinset_reverse,
        hinv.hres, newFrom_toFinset]
      exact Finset.union_comm _ _
    · -- fuel bound
      have hdisj : Disjoint (newFrom x visited).toFinset visited.toFinset := by
        rw [newFrom_toFinset]
        exact Finset.sdiff_disjoint
      have hcardU : ((newFrom x visited).reverse ++ visited).toFinset.card
          = (newFrom x visited).length + visited.toFinset.card := by
        rw [List.toFinset_append, List.toFinset_reverse,
          Finset.card_union_of_disjoint hdisj, List.toFinset_card_of_nodup hnewNd]
      have hsubR : (((newFrom x visited).reverse ++ visited).toFinset : Finset Coord)
          ⊆ ballO c R := by
        rw [List.toFinset_append, List.toFinset_reverse]
        apply Finset.union_subset
        · rw [newFrom_toFinset]
          exact Finset.sdiff_subset.trans (hnbr_sub.trans (ballO_mono c (by omega)))
        · rw [hinv.hvis]
          exact Finset.union_subset (ballO_mono c (by omega))
            (hQ2old_sub.trans (ballO_mono c (by omega)))
      have hcard_le : (newFrom x visited).length + visited.toFinset.card
          ≤ (ballO c R).card := by
        rw [← hcardU]
        exact Finset.card_le_card hsubR
      simp only [List.length_cons, List.length_append, List.length_map] at hfuel ⊢
      rw [hcardU]
      omega
  · -- the dequeued node sits on the boundary: drop it without expanding
    have hge : ¬ ((d : ℤ) < radius) := by omega
    rw [bfsLoop_cons_ge radius fuel x ((d : ℤ)) (Q1' ++ Q2) visited results hge]
    refine ih d Q1' Q2 visited results
      ⟨hinv.hdR, ?_, hinv.hQ2tag, hQ1'nd, hinv.hQ2nd, ?_, ?_, hinv.hQ2R,
        hinv.hvis, hinv.hresnd, hinv.hres⟩ ?_
    · intro p hp
      exact hinv.hQ1tag p (List.mem_cons_of_mem _ hp)
    · intro v hv
      apply hinv.hQ1sub
      simp only [List.map_cons, List.toFinset_cons, Finset.mem_insert]
      exact Or.inr hv
    · intro h
      exact absurd h hd
    · simp only [List.length_cons] at hfuel
      omega


/-- The BFS loop, started in any state satisfying the invariant with enough
fuel, returns a duplicate-free enumeration of the radius-`R` ball. -/
theorem bfsLoop_spec (c : Coord) (radius : ℤ) (R : ℕ) (hR : (R : ℤ) = radius) :
    ∀ (fuel : ℕ) (d : ℕ) (Q1 Q2 : List (Coord × ℤ)) (visited results : List Coord),
      BfsInv c R d Q1 Q2 visited results →
      Q1.length + Q2.length + ((ballO c R).card - visited.toFinset.card) < fuel →
      (bfsLoop radius fuel (Q1 ++ Q2) visited results).Nodup ∧
      (bfsLoop radius fuel (Q1 ++ Q2) visited results).toFinset = ballO c R := by
  intro fuel
  induction fuel with
  | zero =>
    intro d Q1 Q2 visited results _ hfuel
    omega
  | succ fuel ih =>
    intro d Q1 Q2 visited results hinv hfuel
    match Q1, hinv, hfuel with
    | [], hinv, hfuel =>
      match Q2, hinv, hfuel with
      | [], hinv, hfuel =>
        -- queue exhausted: the loop returns `results`
        have hloop : bfsLoop radius (fuel + 1) (([] : List (Coord × ℤ)) ++ [])
            visited results = results := rfl
        rw [hloop]
        have hvis : visited.toFinset = ballO c d := by
          have h := hinv.hvis
          simpa using h
        refine ⟨hinv.hresnd, ?_⟩
        rw [hinv.hres, hvis]
        by_cases hd : d = R
        · rw [hd]
        · have hdlt : d < R := lt_of_le_of_ne hinv.hdR hd
          have hQ2e := hinv.hQ2eq hdlt
          simp only [List.map_nil, List.toFinset_nil, Finset.sdiff_empty] at hQ2e
          have hshell : ballO c (d + 1) \ ballO c d = ∅ := by
            rw [← nbrsOf_newAt, ← hQ2e]
          have hstep : ballO c (d + 1) = ballO c d := by
            apply Finset.Subset.antisymm
            · intro v hv
              by_contra hvd
              have : v ∈ ballO c (d + 1) \ ballO c d := Finset.mem_sdiff.mpr ⟨hv, hvd⟩
              rw [hshell] at this
              exact absurd this (Finset.not_mem_empty v)
            · exact ballO_subset_succ c d
          exact (ballO_stab c hstep R hinv.hdR).symm
      | (px, pt) :: Q2', hinv, hfuel =>
        -- frontier exhausted: move to the next shell
        have hdlt : d < R := by
          rcases lt_or_eq_of_le hinv.hdR with h | h
          · exact h
          · exact absurd (hinv.hQ2R h) (by simp)
        have hQ2setEq : (((((px, pt) :: Q2').map Prod.fst).toFinset) : Finset Coord)
            = newAt c (d + 1) := by
          have h := hinv.hQ2eq hdlt
          simp only [List.map_nil, List.toFinset_nil, Finset.sdiff_empty] at h
          rw [h, nbrsOf_newAt, ← newAt_succ]
        have hpt : pt = ((d + 1 : ℕ) : ℤ) := by
          have h := hinv.hQ2tag (px, pt) (List.mem_cons_self _ _)
          push_cast
          omega
        subst hpt
        have hinv' : BfsInv c R (d + 1) ((px, ((d + 1 : ℕ) : ℤ)) :: Q2') [] visited results := by
        -- fields below
          refine ⟨by omega, ?_, by simp, hinv.hQ2nd, by simp, ?_, ?_, fun _ => rfl, ?_,
            hinv.hresnd, hinv.hres⟩
          · intro p hp
            have h := hinv.hQ2tag p hp
            push_cast at h ⊢
            omega
          · rw [hQ2setEq]
          · intro _
            rw [hQ2setEq]
            simp only [List.map_nil, List.toFinset_nil, Finset.sdiff_self, nbrsOf,
              Finset.biUnion_empty, Finset.empty_sdiff]
          · rw [hinv.hvis, hQ2setEq, newAt_succ]
            ext v
            simp only [Finset.mem_union, Finset.mem_sdiff, List.map_nil,
              List.toFinset_nil, Finset.not_mem_empty, or_false]
            constructor
            · rintro (h | ⟨h, _⟩)
              · exact ballO_subset_succ c d h
              · exact h
            · intro h
              by_cases hvd : v ∈ ballO c d
              · exact Or.inl hvd
              · exact Or.inr ⟨h, hvd⟩
        have hgoal := bfsLoop_pop c radius R hR fuel ih (d + 1) px ((d + 1 : ℕ) : ℤ)
          Q2' [] visited results hinv' (by
            simp only [List.length_cons, List.length_nil] at hfuel ⊢
            omega)
        simpa using hgoal
    | (x, t) :: Q1', hinv, hfuel =>
      exact bfsLoop_pop c radius R hR fuel ih d x t Q1' Q2 visited results hinv hfuel


/-- The BFS of `getCoordsWithinRadius` enumerates, without duplicates, the
radius-`toNat` neighbor-closure ball of the center. -/
theorem getCoordsWithinRadius_spec (q r radius : ℤ) (h : 0 ≤ radius) :
    (getCoordsWithinRadius q r radius).Nodup ∧
    (getCoordsWithinRadius q r radius).toFinset = ballO (q, r) radius.toNat := by
  by_cases h0 : radius ≤ 0
  · have hz : radius = 0 := le_antisymm h0 h
    subst hz
    have hcall : getCoordsWithinRadius q r 0 = [(q, r)] := rfl
    rw [hcall]
    refine ⟨by simp, ?_⟩
    rw [show ((0 : ℤ)).toNat = 0 from rfl, ballO_zero]
    simp
  · have hcall : getCoordsWithinRadius q r radius
        = bfsLoop radius (bfsFuel radius) [((q, r), 0)] [(q, r)] [(q, r)] := by
      simp only [getCoordsWithinRadius, if_neg h0]
    rw [hcall]
    have hR : ((radius.toNat : ℤ)) = radius := Int.toNat_of_nonneg h
    have hmain := bfsLoop_spec (q, r) radius radius.toNat hR (bfsFuel radius) 0
      [((q, r), ((0 : ℕ) : ℤ))] [] [(q, r)] [(q, r)]
      ⟨Nat.zero_le _, by simp, by simp, by simp, by simp,
        by simp [newAt_zero],
        by intro _; simp [newAt_zero, nbrsOf],
        fun _ => rfl,
        by simp [ballO_zero],
        by simp,
        rfl⟩
      (by
        simp only [List.length_cons, List.length_nil, List.toFinset_cons,
          List.toFinset_nil]
        rw [card_ballO]
        simp only [insert_emptyc_eq, Finset.card_singleton, bfsFuel]
        omega)
    simpa using hmain


theorem center_mem_getCoordsWithinRadius (q r radius : ℤ) (h : 0 ≤ radius) :
    (q, r) ∈ getCoordsWithinRadius q r radius := by
  have hspec := getCoordsWithinRadius_spec q r radius h
  rw [← List.mem_toFinset, hspec.2]
  exact ballO_mono (q, r) (Nat.zero_le _) (by simp [ballO_zero])

/-- **C9.** For every center `(q, r)` and radius `≥ 0` the coordinate-level
BFS returns exactly `1 + 3·radius·(radius + 1)` distinct coordinates; the
hexagon map plays no role in this list, entering only through the caller's
lookup filter. -/
theorem getCoordsWithinRadius_count (q r radius : ℤ) (h : 0 ≤ radius) :
    (getCoordsWithinRadius q r radius).Nodup
    ∧ ((getCoordsWithinRadius q r radius).length : ℤ)
        = 1 + 3 * radius * (radius + 1)
    ∧ ∀ (map : CoordMap) (hex : ℕ),
        getHexagonsWithinRadius map ((q, r), hex) radius
          = ((getCoordsWithinRadius q r radius).filterMap
              (fun c => map.lookup c)).toFinset := by
  obtain ⟨hnd, hts⟩ := getCoordsWithinRadius_spec q r radius h
  refine ⟨hnd, ?_, fun _ _ => rfl⟩
  have hlen : (getCoordsWithinRadius q r radius).toFinset.card
      = (getCoordsWithinRadius q r radius).length :=
    List.toFinset_card_of_nodup hnd
  rw [hts, card_ballO] at hlen
  have hR : ((radius.toNat : ℤ)) = radius := Int.toNat_of_nonneg h
  rw [← hlen]
  push_cast
  rw [hR]
  ring

theorem getCoordsWithinRadius_count_witness :
    (0 : ℤ) ≤ 2
    ∧ ((getCoordsWithinRadius 0 0 2).Nodup
      ∧ ((getCoordsWithinRadius 0 0 2).length : ℤ) = 1 + 3 * 2 * (2 + 1)
      ∧ ∀ (map : CoordMap) (hex : ℕ),
          getHexagonsWithinRadius map ((0, 0), hex) 2
            = ((getCoordsWithinRadius 0 0 2).filterMap
                (fun c => map.lookup c)).toFinset) :=
  ⟨by decide, getCoordsWithinRadius_count 0 0 2 (by decide)⟩

/-- **C7.** At hover radius 1 the affected coordinate set is exactly the
center plus its six distinct direct neighbors, where even rows and odd rows
use the two different offset tables; its size is 7. -/
theorem getCoordsWithinRadius_radius_one (q r : ℤ) :
    (getCoordsWithinRadius q r 1).length = 7
    ∧ (getCoordsWithinRadius q r 1).Nodup
    ∧ (getCoordsWithinRadius q r 1).toFinset
        = insert (q, r)
            ((if r % 2 = 0 then
                [((1 : ℤ), (0 : ℤ)), (1, 1), (0, 1), (-1, 0), (0, -1), (1, -1)]
              else
                [(1, 0), (0, 1), (-1, 1), (-1, 0), (-1, -1), (0, -1)]).map
              (fun o => (q + o.1, r + o.2))).toFinset := by
  obtain ⟨hnd, hts⟩ := getCoordsWithinRadius_spec q r 1 (by decide)
  rw [show ((1 : ℤ)).toNat = 1 from rfl] at hts
  have hb1 : ballO (q, r) 1 = insert (q, r) (nbrFinset (q, r)) := by
    rw [ballO_succ_eq, ballO_zero]
    simp only [nbrsOf]
    rw [Finset.singleton_biUnion, Finset.insert_eq]
  have hgd : getDirectNeighbors (q, r)
      = (if r % 2 = 0 then
          [((1 : ℤ), (0 : ℤ)), (1, 1), (0, 1), (-1, 0), (0, -1), (1, -1)]
        else
          [(1, 0), (0, 1), (-1, 1), (-1, 0), (-1, -1), (0, -1)]).map
          (fun o => (q + o.1, r + o.2)) := rfl
  have hlen : (getCoordsWithinRadius q r 1).toFinset.card
      = (getCoordsWithinRadius q r 1).length :=
    List.toFinset_card_of_nodup hnd
  rw [hts, card_ballO] at hlen
  refine ⟨by omega, hnd, ?_⟩
  rw [hts, hb1, ← hgd]
  rfl

/-- **C6, counterexample.** On a map holding only the center hexagon, the
handle set returned at radius 1 equals the one at radius 0, so it is not a
strict superset of it. -/
theorem getHexagonsWithinRadius_superset_counterexample :
    ¬ (getHexagonsWithinRadius [((0, 0), ((0, 0), 0))] ((0, 0), 0) 0
        ⊂ getHexagonsWithinRadius [((0, 0), ((0, 0), 0))] ((0, 0), 0) 1) := by
  decide

/-- **C6, amended.** At the coordinate level the radius-`r` result is a
strict superset of the radius-`r-1` result and always contains the center;
at the handle level the inclusion still holds but need not be strict,
because both lists pass through the same map-lookup filter. -/
theorem getCoordsWithinRadius_superset (q r radius : ℤ) (h : 1 ≤ radius) :
    (getCoordsWithinRadius q r (radius - 1)).toFinset
      ⊂ (getCoordsWithinRadius q r radius).toFinset
    ∧ (q, r) ∈ getCoordsWithinRadius q r radius
    ∧ ∀ (map : CoordMap) (hex : ℕ),
        getHexagonsWithinRadius map ((q, r), hex) (radius - 1)
          ⊆ getHexagonsWithinRadius map ((q, r), hex) radius := by
  obtain ⟨hnd, hts⟩ := getCoordsWithinRadius_spec q r radius (by omega)
  obtain ⟨hnd', hts'⟩ := getCoordsWithinRadius_spec q r (radius - 1) (by omega)
  have hR1 : (radius - 1).toNat = radius.toNat - 1 := by omega
  have hRpos : 1 ≤ radius.toNat := by omega
  have hsub : (getCoordsWithinRadius q r (radius - 1)).toFinset
      ⊆ (getCoordsWithinRadius q r radius).toFinset := by
    rw [hts, hts', hR1]
    exact ballO_mono (q, r) (by omega)
  have hssub : (getCoordsWithinRadius q r (radius - 1)).toFinset
      ⊂ (getCoordsWithinRadius q r radius).toFinset := by
    refine Finset.ssubset_iff_subset_ne.mpr ⟨hsub, fun heq => ?_⟩
    have hcard : (getCoordsWithinRadius q r (radius - 1)).toFinset.card
        = (getCoordsWithinRadius q r radius).toFinset.card := by rw [heq]
    rw [hts, hts', hR1, card_ballO, card_ballO] at hcard
    obtain ⟨S, hS⟩ : ∃ S, radius.toNat = S + 1 := ⟨radius.toNat - 1, by omega⟩
    rw [hS] at hcard
    simp only [Nat.add_sub_cancel] at hcard
    nlinarith
  refine ⟨hssub, center_mem_getCoordsWithinRadius q r radius (by omega), ?_⟩
  intro map hex a ha
  simp only [getHexagonsWithinRadius, List.mem_toFinset, List.mem_filterMap] at ha ⊢
  obtain ⟨c', hc', hl⟩ := ha
  exact ⟨c', List.mem_toFinset.mp (hsub (List.mem_toFinset.mpr hc')), hl⟩

theorem getCoordsWithinRadius_superset_witness :
    (1 : ℤ) ≤ 1
    ∧ ((getCoordsWithinRadius 0 0 (1 - 1)).toFinset
        ⊂ (getCoordsWithinRadius 0 0 1).toFinset
      ∧ ((0 : ℤ), (0 : ℤ)) ∈ getCoordsWithinRadius 0 0 1
      ∧ ∀ (map : CoordMap) (hex : ℕ),
          getHexagonsWithinRadius map ((0, 0), hex) (1 - 1)
            ⊆ getHexagonsWithinRadius map ((0, 0), hex) 1) :=
  ⟨by decide, getCoordsWithinRadius_superset 0 0 1 (by decide)⟩

end Civ6
